import Mathlib

/-!
# Verification of the `ufs` configuration engine (`ush/python_utils/config_parser.py`)

This file gives a shallow embedding of the configuration engine of the
repository: the Value model, the template expander `extend_yaml`, the
structural operations (`flatten_dict`, `structure_dict`, `update_dict`,
`check_structure_dict`) and the INI and JSON format adapters, together with
theorems settling the spec claims about them.

Python dictionaries are modelled as insertion-ordered association lists.
External collaborators (the jinja2 rendering engine, the stdlib
`configparser` and `json` modules) are modelled on the fragments the engine
exercises; repository helpers living outside the provided sources
(`environment.py`: `str_to_type`, `str_to_list`, `list_to_str`) are modelled
from the spec, as flagged in their doc comments.
-/

set_option autoImplicit false

namespace Ufs

/-- The Value model: the in-memory representation of configuration data
(`Null | Bool | Number | String | List | Mapping`).  Mappings are
insertion-ordered association lists, matching Python dictionaries; numbers
are modelled on integers (the claims under study exercise no floats). -/
inductive Value where
  | null
  | bool (b : Bool)
  | int (n : Int)
  | str (s : String)
  | list (items : List Value)
  | dict (entries : List (String × Value))
  deriving Repr

/-- A Python dictionary of configuration data. -/
abbrev Dict := List (String × Value)

/-! ## Association-list model of Python dictionaries -/
/-- The key list of a dictionary, in insertion order. -/
def keys (d : Dict) : List String := d.map Prod.fst

/-- Python `d[k]` / `d.get(k)`: the value at key `k`, if present. -/
def lookup (d : Dict) (k : String) : Option Value :=
  match d with
  | [] => none
  | (k1, v) :: rest => if k1 = k then some v else lookup rest k

/-- Python dict assignment `d[k] = v`: replaces the value in place when the
key is present (keeping its position), appends at the end otherwise. -/
def setKey (d : Dict) (k : String) (v : Value) : Dict :=
  match d with
  | [] => [(k, v)]
  | (k1, v1) :: rest => if k1 = k then (k1, v) :: rest else (k1, v1) :: setKey rest k v

/-- Python `del d[k]`: removes the entry with key `k` (keys are unique in a
Python dictionary, so removing every occurrence agrees with removing one). -/
def delKey : Dict → String → Dict
  | [], _ => []
  | (k1, v1) :: rest, k => if k1 = k then delKey rest k else (k1, v1) :: delKey rest k

/-- Python `d.update(r)`: assigns every entry of `r` into `d`, in order. -/
def dictUpdate (d r : Dict) : Dict :=
  r.foldl (fun acc e => setKey acc e.1 e.2) d

/-! ## Character-list string utilities (Python string operations) -/
/-- Python substring test `pat in s`, on character lists. -/
def containsSub (pat : List Char) : List Char → Bool
  | [] => pat.isEmpty
  | c :: rest => pat.isPrefixOf (c :: rest) || containsSub pat rest

/-- Python substring test `pat in s` on strings. -/
def substr (pat s : String) : Bool := containsSub pat.data s.data

/-- Python `s.replace(pat, repl)` on character lists, replacing every
leftmost, non-overlapping occurrence of `pat` by `repl`.  The recursion is
bounded by an explicit fuel parameter, always supplied sufficiently by
`strReplace`; the engine only replaces nonempty template substrings, and
the empty pattern is modelled as the identity. -/
def replaceCharsF (pat repl : List Char) : Nat → List Char → List Char
  | 0, s => s
  | _ + 1, [] => []
  | fuel + 1, c :: rest =>
    if pat ≠ [] ∧ pat.isPrefixOf (c :: rest) then
      repl ++ replaceCharsF pat repl fuel ((c :: rest).drop pat.length)
    else c :: replaceCharsF pat repl fuel rest

/-- Python `s.replace(pat, repl)` on strings. -/
def strReplace (s pat repl : String) : String :=
  String.mk (replaceCharsF pat.data repl.data (s.data.length + 1) s.data)

/-- Both-ends strip with a character predicate (Python `str.strip(chars)`). -/
def stripChars (p : Char → Bool) (l : List Char) : List Char :=
  ((l.dropWhile p).reverse.dropWhile p).reverse

/-- Python whitespace, as recognised by `str.strip()`. -/
def isPyWs (c : Char) : Bool :=
  c = ' ' || c = '\t' || c = '\n' || c = '\r' || c = '\x0b' || c = '\x0c'

/-- A quote character, as stripped by the spec-modelled scalar readers. -/
def isQuoteChar (c : Char) : Bool := c = '"' || c = '\x27'

def wsStrip (l : List Char) : List Char := stripChars isPyWs l

def quoteStrip (l : List Char) : List Char := stripChars isQuoteChar l

/-! ## Decimal integers (Python `str(int)` and `int(str)`) -/
/-- The decimal digit character for `n < 10`. -/
def decDigit (n : Nat) : Char :=
  if n = 0 then '0' else if n = 1 then '1' else if n = 2 then '2'
  else if n = 3 then '3' else if n = 4 then '4' else if n = 5 then '5'
  else if n = 6 then '6' else if n = 7 then '7' else if n = 8 then '8' else '9'

def natToDecCharsF : Nat → Nat → List Char
  | 0, _ => []
  | fuel + 1, n =>
    if n < 10 then [decDigit n]
    else natToDecCharsF fuel (n / 10) ++ [decDigit (n % 10)]

/-- The decimal digit string of a natural number (fuel-bounded, with fuel
always supplied sufficiently by the wrapper). -/
def natToDecChars (n : Nat) : List Char := natToDecCharsF (n + 1) n

/-- Python `str()` of an integer. -/
def intToDecStr (n : Int) : String :=
  if n < 0 then String.mk ('-' :: natToDecChars n.natAbs)
  else String.mk (natToDecChars n.natAbs)

def digitVal (c : Char) : Option Nat :=
  if c.isDigit then some (c.toNat - 48) else none

def parseDigitsAux : List Char → Nat → Option Nat
  | [], acc => some acc
  | c :: rest, acc =>
    match digitVal c with
    | some d => parseDigitsAux rest (acc * 10 + d)
    | none => none

/-- Python `int(s)` on the fragment the engine exercises: an optional minus
sign followed by decimal digits (whitespace, `+` and `_` digit grouping are
outside the modelled fragment). -/
def parseIntChars : List Char → Option Int
  | [] => none
  | c :: rest =>
    if c = '-' then
      if rest = [] then none
      else (parseDigitsAux rest 0).map (fun n => -(n : Int))
    else (parseDigitsAux (c :: rest) 0).map (fun n => (n : Int))

def parseIntStr (s : String) : Option Int := parseIntChars s.data

/-! ## Line splitting (for the INI reader) -/
/-- Split a character list at newline characters. -/
def splitNL : List Char → List (List Char)
  | [] => [[]]
  | c :: rest =>
    if c = '\n' then [] :: splitNL rest
    else
      match splitNL rest with
      | [] => [[c]]
      | l :: ls => (c :: l) :: ls

/-! ## Python `str()` / `repr()` of values -/
def joinSep (sep : String) : List String → String
  | [] => ""
  | [x] => x
  | x :: rest => x ++ sep ++ joinSep sep rest

/-- Python `repr()` of a value, as it appears inside printed containers
(fuel-bounded on container depth; every wrapper supplies sufficient fuel). -/
def pyReprF : Nat → Value → String
  | 0, _ => ""
  | fuel + 1, v =>
    match v with
    | .null => "None"
    | .bool true => "True"
    | .bool false => "False"
    | .int n => intToDecStr n
    | .str s => "\x27" ++ s ++ "\x27"
    | .list items => "[" ++ joinSep ", " (items.map (pyReprF fuel)) ++ "]"
    | .dict entries =>
        "\x7b" ++
          joinSep ", " (entries.map (fun e => "\x27" ++ e.1 ++ "\x27: " ++ pyReprF fuel e.2)) ++
          "\x7d"

/-- Python `str()` of a value: strings print bare, everything else as its
`repr()`. -/
def pyStrF (fuel : Nat) : Value → String
  | .str s => s
  | v => pyReprF fuel v

/-! ## Spec-modelled helpers from `environment.py` (not under `src/`) -/
/-- Modelled from the spec: `str_to_type` from `environment.py` (only its
call sites are in `src/`).  Per spec section 4.2 it reinterprets a rendered
scalar "as Bool/Number/List/String per standard scalar-inference rules":
the Python boolean literals parse as booleans, decimal integers as numbers,
and anything else stays a string.  Numbers are modelled on integers and the
comma-joined list inference the spec attaches to the INI/Shell reader
(section 3) is kept in `strToList`; the claims under study exercise neither
floats nor inferred lists. -/
def strToType (s : String) : Value :=
  if s = "True" then .bool true
  else if s = "False" then .bool false
  else
    match parseIntStr s with
    | some n => .int n
    | none => .str s

/-- Modelled from the spec: `str_to_list` from `environment.py` (only its
call sites are in `src/`), the INI/Shell scalar reader: it strips
surrounding whitespace and quote characters and applies scalar inference
(spec section 8: `host='localhost'` re-parses to the string `localhost`).
The comma-joined list inference of spec section 3 is outside the modelled
fragment: the claims under study exercise scalar values. -/
def strToList (s : String) : Value :=
  strToType (String.mk (quoteStrip (wsStrip s.data)))

/-- Modelled from the spec: `list_to_str` from `environment.py` (only its
call sites are in `src/`): a string is returned as-is, other scalars via
`str()`, and a list is comma-joined from its elements (spec section 3,
"INI/Shell comma-joined scalars"). -/
def listToStrF (fuel : Nat) : Value → String
  | .list items => joinSep "," (items.map (pyStrF fuel))
  | v => pyStrF fuel v

/-! ## The template scanner of `extend_yaml` -/
/-- The template-opening token. -/
def tmplOpen : String := "\x7b\x7b"

/-- The statement-block opening token. -/
def stmtOpen : String := "\x7b%"

/-- Characters before the first right brace, and the remainder from it. -/
def takeUntilChar (stop : Char) : List Char → List Char × List Char
  | [] => ([], [])
  | c :: rest =>
    if c = stop then ([], c :: rest)
    else
      let p := takeUntilChar stop rest
      (c :: p.1, p.2)

/-- Whether the remainder after a double left brace closes with a double
right brace: the greedy `[^\x7d]*` stops at the first right brace, which
must be immediately followed by another. -/
def tplClosed (rest : List Char) : Bool :=
  match (takeUntilChar '\x7d' rest).2 with
  | '\x7d' :: '\x7d' :: _ => true
  | _ => false

/-- The scan position after a completed template match. -/
def tplRest (rest : List Char) : List Char :=
  ((takeUntilChar '\x7d' rest).2).drop 2

/-- The matched template text after a double left brace. -/
def tplMatch (rest : List Char) : List Char :=
  '\x7b' :: '\x7b' :: ((takeUntilChar '\x7d' rest).1 ++ ['\x7d', '\x7d'])

/-- The scan `re.finditer(r"\x7b\x7b[^\x7d]*\x7d\x7d|\S", v_str)` of
`extend_yaml` (line 198), keeping only the matches that contain the
template opener: at a double left brace the regex greedily takes
non-right-brace characters and then needs a double right brace, otherwise
the alternation consumes one character; single-character matches never
contain the opener and are dropped by the filter.  Fuel-bounded; the
wrapper supplies sufficient fuel. -/
def findTemplatesAuxF : Nat → List Char → List (List Char)
  | 0, _ => []
  | _ + 1, [] => []
  | _ + 1, [_] => []
  | fuel + 1, c1 :: c2 :: rest =>
    if c1 = '\x7b' ∧ c2 = '\x7b' ∧ tplClosed rest then
      tplMatch rest :: findTemplatesAuxF fuel (tplRest rest)
    else findTemplatesAuxF fuel (c2 :: rest)

def findTemplates (s : String) : List String :=
  (findTemplatesAuxF (s.data.length + 1) s.data).map String.mk

/-! ## The template expander `extend_yaml` -/
/-- Errors the jinja2 engine can raise while compiling or rendering a unit.
`undefinedErr` is `jinja2.exceptions.UndefinedError` (StrictUndefined);
`valueErr`, `typeErr` and `zeroDivisionErr` are the Python builtins;
`otherErr` stands for every other exception. -/
inductive RenderErr where
  | undefinedErr
  | valueErr
  | typeErr
  | zeroDivisionErr
  | otherErr (msg : String)
  deriving DecidableEq, Repr

/-- Outcome of handing one expression unit to the jinja2 engine: compiling
(`j2env.from_string`) may fail, and rendering may succeed or raise. -/
inductive RenderResult where
  | compileErr (e : RenderErr)
  | renderOk (out : String)
  | renderErr (e : RenderErr)
  deriving DecidableEq, Repr

/-- The rendering errors `extend_yaml` swallows (lines 217-225): undefined
variable, value, type, and division errors. -/
def swallowedErr : RenderErr → Bool
  | .undefinedErr => true
  | .valueErr => true
  | .typeErr => true
  | .zeroDivisionErr => true
  | .otherErr _ => false

/-- The per-unit loop of `extend_yaml` building `data` (lines 200-230): each
unit is compiled and rendered; a compile error propagates (the bare
`except` around `from_string` prints and re-raises); an undefined-variable,
value, type or division error during rendering leaves the unit text
unchanged in `data` and the loop continues; any other rendering error
propagates and aborts the expansion. -/
def renderUnits (render : String → RenderResult) : List String → Except RenderErr (List String)
  | [] => .ok []
  | t :: rest =>
    match render t with
    | .compileErr e => .error e
    | .renderOk r => (renderUnits render rest).map (fun ds => r :: ds)
    | .renderErr e =>
        if swallowedErr e then (renderUnits render rest).map (fun ds => t :: ds)
        else .error e

/-- The per-unit outcome as the spec words it: a unit that renders is
replaced by its rendering, a unit hitting a swallowed error is left
literally in place. -/
def specResolveUnit (render : String → RenderResult) (t : String) : String :=
  match render t with
  | .renderOk r => r
  | _ => t

/-- Processing of one non-mapping scalar by `extend_yaml` (lines 175-249):
detect template syntax in `str(v)`; with a statement block the whole scalar
is one unit, otherwise split into the double-brace units; render each unit;
substitute the outcomes back with `str.replace`; and coerce the reassembled
string with `str_to_type` unless some unit text contains the literal
substring `string`. -/
def extendScalarF (fuel : Nat) (render : String → RenderResult) (v : Value) :
    Except RenderErr Value :=
  let vs := pyStrF fuel v
  if substr tmplOpen vs || substr stmtOpen vs then
    let templates := if substr stmtOpen vs then [vs] else findTemplates vs
    (renderUnits render templates).map (fun data =>
      let out := (templates.zip data).foldl (fun s td => strReplace s td.1 td.2) vs
      if templates.all (fun t => ! substr "string" t) then strToType out
      else .str out)
  else .ok v

/-- An identifier character of a simple jinja2 variable expression. -/
def isIdentChar (c : Char) : Bool := c.isAlphanum || c = '_'

/-- A unit of the shape `open open ident close close` with a plain
identifier between the braces. -/
def parseSimpleUnit (l : List Char) : Option String :=
  match l with
  | '\x7b' :: '\x7b' :: rest =>
      match takeUntilChar '\x7d' rest with
      | (inner, ['\x7d', '\x7d']) =>
          let ident := wsStrip inner
          if ident ≠ [] ∧ ident.all isIdentChar then some (String.mk ident) else none
      | _ => none
  | _ => none

/-- Models the jinja2 `Environment(undefined=StrictUndefined)` pipeline
`from_string` + `render` on the single-variable fragment the claims
exercise: a unit holding one plain identifier renders that variable from
the keyword scope via `str()` (the program only reaches jinja2 with
pairwise-distinct keywords, the collision case having already raised); a
missing variable raises `UndefinedError`; any other unit shape is modelled
as a compile error (`TemplateSyntaxError`). -/
def jinjaRenderF (fuel : Nat) (scope : Dict) (t : String) : RenderResult :=
  match parseSimpleUnit t.data with
  | some ident =>
      match lookup scope ident with
      | some v => .renderOk (pyStrF fuel v)
      | none => .renderErr .undefinedErr
  | none => .compileErr (.otherErr "TemplateSyntaxError")

/-! ## Structural operations -/
/-- The entry loop of `update_dict` over the source dictionary, with
`recSub` the depth-bounded recursive call used for mapping-valued source
entries. -/
def updateLoopF (recSub : Dict → Dict → Except String Dict) (pd : Bool) :
    Dict → Dict → Except String Dict
  | [], t => .ok t
  | (k, v) :: rest, t =>
    match v with
    | .dict sv =>
        (match lookup t k with
         | some (.dict tv) => do
             let tv2 ← recSub sv tv
             updateLoopF recSub pd rest (setKey t k (.dict tv2))
         | _ => updateLoopF recSub pd rest (setKey t k (.dict sv)))
    | .null =>
        if k ∈ keys t then updateLoopF recSub pd rest (delKey t k)
        else updateLoopF recSub pd rest (setKey t k .null)
    | _ =>
        match lookup t k with
        | some tk => do
            let overwrite ←
              if !pd then pure true
              else
                match tk with
                | .null => pure true
                | .str s => pure (s.length == 0 || substr tmplOpen s)
                | .list l => pure (l.length == 0 ||
                    l.any (fun w => match w with | .str s2 => s2 == tmplOpen | _ => false))
                | .dict dd => pure (dd.length == 0 || (keys dd).contains tmplOpen)
                | .bool _ => Except.error "TypeError"
                | .int _ => Except.error "TypeError"
            if overwrite then updateLoopF recSub pd rest (setKey t k v)
            else updateLoopF recSub pd rest t
        | none => updateLoopF recSub pd rest (setKey t k v)

/-- `update_dict(dict_o, dict_t, provide_default)` (lines 591-618), threading
the mutated target, bounded in source nesting depth by the fuel parameter
(standing for the Python recursion limit; exhaustion models
`RecursionError`).  In provide-default mode the overwrite test evaluates
`len(dict_t[k])`, which raises `TypeError` on numbers and booleans. -/
def updateDictF : Nat → Bool → Dict → Dict → Except String Dict
  | 0, _, _, _ => .error "RecursionError"
  | fuel + 1, pd, src, t => updateLoopF (updateDictF fuel pd) pd src t

/-- The entry loop of `flatten_dict`, with `recSub` the depth-bounded
recursive call (the inner call of the source passes no key subset). -/
def flattenLoopF (recSub : Dict → Dict) (ks : Option (List String)) : Dict → Dict → Dict
  | acc, [] => acc
  | acc, (k, v) :: rest =>
    if (match ks with | none => true | some l => l.isEmpty || l.contains k) then
      match v with
      | .dict sub => flattenLoopF recSub ks (dictUpdate acc (recSub sub)) rest
      | _ => flattenLoopF recSub ks (setKey acc k v) rest
    else flattenLoopF recSub ks acc rest

/-- `flatten_dict(dictionary, keys)` (lines 551-568), bounded in nesting
depth by the fuel parameter: nested dictionaries are flattened recursively
and merged with `dict.update`; non-mapping leaves are assigned; on key
collision the later-visited value wins.  An empty key subset, like `None`,
selects every key (Python `not keys`). -/
def flattenDictF : Nat → Dict → Option (List String) → Dict
  | 0, _, _ => []
  | fuel + 1, d, ks => flattenLoopF (fun sub => flattenDictF fuel sub none) ks [] d

/-- The entry loop of `structure_dict`, with `recSub` the depth-bounded
recursive call. -/
def structureLoopF (recSub : Dict → Dict) (o : Dict) : Dict → Dict → Dict
  | acc, [] => acc
  | acc, (k, v) :: rest =>
    match v with
    | .dict sub =>
        let r := recSub sub
        structureLoopF recSub o (if r.isEmpty then acc else setKey acc k (.dict r)) rest
    | _ =>
        match lookup o k with
        | some w => structureLoopF recSub o (setKey acc k w) rest
        | none => structureLoopF recSub o acc rest

/-- `structure_dict(dict_o, dict_t)` (lines 571-588), bounded in template
nesting depth by the fuel parameter: for a template key holding a mapping,
recurse and keep the result only when non-empty; for a scalar template key,
copy the flat dictionary value when present. -/
def structureDictF : Nat → Dict → Dict → Dict
  | 0, _, _ => []
  | fuel + 1, o, t => structureLoopF (fun sub => structureDictF fuel o sub) o [] t

/-- The entry loop of `check_structure_dict`, with `recSub` the
depth-bounded recursive call. -/
def checkLoopF (recSub : Dict → Dict → Dict) (t : Dict) : Dict → Dict → Dict
  | inval, [] => inval
  | inval, (k, v) :: rest =>
    match lookup t k with
    | some v1 =>
        (match v, v1 with
         | .dict sub, .dict sub1 =>
             let r := recSub sub sub1
             checkLoopF recSub t (if r.isEmpty then inval else dictUpdate inval r) rest
         | _, _ => checkLoopF recSub t inval rest)
    | none => checkLoopF recSub t (setKey inval k v) rest

/-- `check_structure_dict(dict_o, dict_t)` (lines 621-642), bounded in
nesting depth by the fuel parameter: a candidate key absent from the
template is recorded invalid; a key present in both whose values are both
mappings contributes its recursively-found invalid sub-entries via
`dict.update`; every other key present in the template is accepted. -/
def checkStructureDictF : Nat → Dict → Dict → Dict
  | 0, _, _ => []
  | fuel + 1, o, t => checkLoopF (fun sub sub1 => checkStructureDictF fuel sub sub1) t [] o

/-! ## The INI adapter -/
/-- The closing step of `cfg_to_ini_str` (lines 449-453): a leading blank
line unless the section path is dotted, the scalar lines under a
`[section]` header, then the sub-blocks; the header is omitted when only
sub-blocks were produced.  `str(None)` names the top-level section when a
header is emitted there. -/
def iniSectionHeader (kname : Option String) (p : String × String) : String :=
  let c : String :=
    match kname with
    | some kn => if substr "." kn then "" else "\n"
    | none => "\n"
  if p.1 = "" ∧ p.2 ≠ "" then c ++ p.2
  else c ++ "[" ++ (match kname with | some kn => kn | none => "None") ++ "]\n" ++ p.1 ++ p.2

/-- The list branch of `cfg_to_ini_str` (lines 430-437): mapping elements
recurse as sub-blocks until the first non-mapping element, which emits the
whole list comma-joined and stops the loop (`break`). -/
def iniListPartF (fuel : Nat) (recSub : Dict → Option String → String)
    (k nk : String) (orig : List Value) : List Value → String
  | [] => ""
  | va :: rest =>
    match va with
    | .dict sub => recSub sub (some nk) ++ iniListPartF fuel recSub k nk orig rest
    | _ => k ++ "=" ++ listToStrF fuel (.list orig) ++ "\n"

/-- The entry loop of `cfg_to_ini_str` (lines 422-447), returning the
accumulated scalar lines (`ini_str`) and sub-block text (`ini_str_sub`) in
iteration order: scalars are emitted as `key='value'` lines with quote and
newline characters substituted (single quote to double quote, newline to
space); nested dictionaries are emitted as dotted `[section.path]`
sub-blocks through `recSub`, the depth-bounded recursive call. -/
def cfgIniLoopF (fuel : Nat) (recSub : Dict → Option String → String) :
    Dict → Option String → String × String
  | [], _ => ("", "")
  | (k, v) :: rest, kname =>
    let nk : String := match kname with | some kn => kn ++ "." ++ k | none => k
    match v with
    | .dict sub =>
        let p := cfgIniLoopF fuel recSub rest kname
        (p.1, recSub sub (some nk) ++ p.2)
    | .list items =>
        let p := cfgIniLoopF fuel recSub rest kname
        (p.1, iniListPartF fuel recSub k nk items items ++ p.2)
    | _ =>
        let p := cfgIniLoopF fuel recSub rest kname
        let v1 := strReplace (strReplace (listToStrF fuel v) "\x27" "\"") "\n" " "
        (k ++ "=\x27" ++ v1 ++ "\x27\n" ++ p.1, p.2)

/-- `cfg_to_ini_str(cfg, kname)` (lines 417-453), bounded in nesting depth
by the fuel parameter (standing for the Python recursion limit). -/
def cfgToIniStrF : Nat → Dict → Option String → String
  | 0, _, _ => ""
  | fuel + 1, cfg, kname =>
      iniSectionHeader kname (cfgIniLoopF (fuel + 1) (cfgToIniStrF fuel) cfg kname)

/-- Failures of the modelled `configparser` reader. -/
inductive IniErr where
  | missingSectionHeader
  | duplicateEntry
  | parsingError
  deriving DecidableEq, Repr

/-- An option-line delimiter of `configparser` (`=` or `:`). -/
def iniDelim (c : Char) : Bool := c = '=' || c = ':'

/-- Split an option line at its first delimiter. -/
def splitOpt : List Char → Option (List Char × List Char)
  | [] => none
  | c :: rest =>
    if iniDelim c then some ([], rest)
    else
      match splitOpt rest with
      | some p => some (c :: p.1, p.2)
      | none => none

/-- Classification of one stripped input line by the modelled
`configparser`. -/
inductive IniLine where
  | blankLine
  | commentLine
  | sectionLine (name : List Char)
  | kvLine (k v : List Char)
  | junkLine
  deriving DecidableEq, Repr

/-- Classify one raw line: blank lines and `#`/`;` comments are skipped, a
line starting with `[` and containing `]` is a section header named by the
characters before the first `]`, and a line with an `=` or `:` delimiter
and a nonempty key is an option. -/
def classifyIniLine (l : List Char) : IniLine :=
  match wsStrip l with
  | [] => .blankLine
  | c :: rest =>
    if c = '#' ∨ c = ';' then .commentLine
    else if c = '[' ∧ ']' ∈ rest then .sectionLine (takeUntilChar ']' rest).1
    else
      match splitOpt (c :: rest) with
      | some p => if wsStrip p.1 = [] then .junkLine else .kvLine (wsStrip p.1) (wsStrip p.2)
      | none => .junkLine

/-- Append one option into its section of the raw accumulator; `none` on a
duplicate option (`configparser` is strict) or a missing section. -/
def appendOpt : List (String × List (String × String)) → String → String → String →
    Option (List (String × List (String × String)))
  | [], _, _, _ => none
  | (s, es) :: rest, sname, k, v =>
    if s = sname then
      if (es.map Prod.fst).contains k then none
      else some ((s, es ++ [(k, v)]) :: rest)
    else (appendOpt rest sname k v).map (fun r => (s, es) :: r)

/-- The line loop of the modelled `configparser.read_string`. -/
def iniFoldLines : List (List Char) → Option String →
    List (String × List (String × String)) →
    Except IniErr (List (String × List (String × String)))
  | [], _, acc => .ok acc
  | l :: rest, cur, acc =>
    match classifyIniLine l with
    | .blankLine => iniFoldLines rest cur acc
    | .commentLine => iniFoldLines rest cur acc
    | .sectionLine name =>
        let sname := String.mk name
        if (acc.map Prod.fst).contains sname then .error .duplicateEntry
        else iniFoldLines rest (some sname) (acc ++ [(sname, [])])
    | .kvLine k v =>
        (match cur with
         | none => .error .missingSectionHeader
         | some sname =>
             match appendOpt acc sname (String.mk k) (String.mk v) with
             | some acc2 => iniFoldLines rest cur acc2
             | none => .error .duplicateEntry)
    | .junkLine => .error .parsingError

/-- `load_ini_config(config_file_or_string, return_string=0)` (lines
389-403) on a non-file input string: the text is parsed by
`configparser.RawConfigParser` (with `optionxform = str`, modelled here on
its line-oriented fragment: multi-line continuation values and the DEFAULT
section are outside the modelled fragment) and every option value is passed
through `str_to_list`. -/
def loadIniConfig (s : String) : Except IniErr Dict :=
  (iniFoldLines (splitNL s.data) none []).map
    (fun acc => acc.map (fun se =>
      (se.1, Value.dict (se.2.map (fun kv => (kv.1, strToList kv.2))))))

/-! ## The JSON adapter -/
def jsonWs (c : Char) : Bool := c = ' ' || c = '\t' || c = '\n' || c = '\r'

def jsonSkipWs (l : List Char) : List Char := l.dropWhile jsonWs

/-- A nonempty digit run as a natural number, with the rest of the input. -/
def jsonParseNat : List Char → Nat → Bool → Option (Nat × List Char)
  | [], acc, seen => if seen then some (acc, []) else none
  | c :: rest, acc, seen =>
    match digitVal c with
    | some d => jsonParseNat rest (acc * 10 + d) true
    | none => if seen then some (acc, c :: rest) else none

mutual

/-- One JSON value (fuel-bounded recursive descent).  Models the stdlib
`json.loads` grammar on the fragment the engine exercises: objects, arrays,
strings with the common escapes, integers, and the three literals;
fractional and exponent number forms are outside the modelled fragment. -/
def jsonParseVal : Nat → List Char → Option (Value × List Char)
  | 0, _ => none
  | fuel + 1, l =>
    match jsonSkipWs l with
    | 'n' :: 'u' :: 'l' :: 'l' :: rest => some (.null, rest)
    | 't' :: 'r' :: 'u' :: 'e' :: rest => some (.bool true, rest)
    | 'f' :: 'a' :: 'l' :: 's' :: 'e' :: rest => some (.bool false, rest)
    | '"' :: rest => (jsonParseStr fuel rest).map (fun p => (Value.str (String.mk p.1), p.2))
    | '[' :: rest =>
        (match jsonSkipWs rest with
         | ']' :: rest2 => some (.list [], rest2)
         | _ => (jsonParseItems fuel rest).map (fun p => (Value.list p.1, p.2)))
    | '\x7b' :: rest =>
        (match jsonSkipWs rest with
         | '\x7d' :: rest2 => some (.dict [], rest2)
         | _ => (jsonParseMembers fuel rest).map (fun p => (Value.dict p.1, p.2)))
    | c :: rest =>
        if c = '-' then
          (match jsonParseNat rest 0 false with
           | some p => some (.int (-(p.1 : Int)), p.2)
           | none => none)
        else
          (match jsonParseNat (c :: rest) 0 false with
           | some p => some (.int (p.1 : Int), p.2)
           | none => none)
    | [] => none

/-- The characters of a JSON string up to its closing quote. -/
def jsonParseStr : Nat → List Char → Option (List Char × List Char)
  | 0, _ => none
  | fuel + 1, l =>
    match l with
    | [] => none
    | '"' :: rest => some ([], rest)
    | '\\' :: e :: rest =>
        (match e with
         | '"' => (jsonParseStr fuel rest).map (fun p => ('"' :: p.1, p.2))
         | '\\' => (jsonParseStr fuel rest).map (fun p => ('\\' :: p.1, p.2))
         | 'n' => (jsonParseStr fuel rest).map (fun p => ('\n' :: p.1, p.2))
         | 't' => (jsonParseStr fuel rest).map (fun p => ('\t' :: p.1, p.2))
         | _ => none)
    | c :: rest => (jsonParseStr fuel rest).map (fun p => (c :: p.1, p.2))

/-- Comma-separated array items up to the closing bracket. -/
def jsonParseItems : Nat → List Char → Option (List Value × List Char)
  | 0, _ => none
  | fuel + 1, l =>
    match jsonParseVal fuel l with
    | none => none
    | some (v, rest) =>
        match jsonSkipWs rest with
        | ',' :: rest2 => (jsonParseItems fuel rest2).map (fun p => (v :: p.1, p.2))
        | ']' :: rest2 => some ([v], rest2)
        | _ => none

/-- Comma-separated object members up to the closing brace. -/
def jsonParseMembers : Nat → List Char → Option (Dict × List Char)
  | 0, _ => none
  | fuel + 1, l =>
    match jsonSkipWs l with
    | '"' :: rest =>
        (match jsonParseStr fuel rest with
         | none => none
         | some (kcs, rest2) =>
             match jsonSkipWs rest2 with
             | ':' :: rest3 =>
                 (match jsonParseVal fuel rest3 with
                  | none => none
                  | some (v, rest4) =>
                      match jsonSkipWs rest4 with
                      | ',' :: rest5 =>
                          (jsonParseMembers fuel rest5).map
                            (fun p => ((String.mk kcs, v) :: p.1, p.2))
                      | '\x7d' :: rest5 => some ([(String.mk kcs, v)], rest5)
                      | _ => none)
             | _ => none)
    | _ => none

end

/-- `json.loads` on a whole document: one value and only whitespace after. -/
def jsonLoads (s : String) : Option Value :=
  match jsonParseVal (s.length + 1) s.data with
  | some (v, rest) => if jsonSkipWs rest = [] then some v else none
  | none => none

/-- The Python exceptions `load_json_config` can surface. -/
inductive PyErr where
  | nameErr (missing : String)
  deriving DecidableEq, Repr

/-- `load_json_config(config_file_or_string)` (lines 255-267) on a non-file
input string: `json.loads` failures are caught as `JSONDecodeError`, and
the handler then evaluates an f-string referring to the name `config_file`
-- but the parameter of the function is `config_file_or_string` and no
`config_file` is in scope, so the handler itself raises `NameError`
instead of the intended descriptive exception. -/
def loadJsonConfig (s : String) : Except PyErr Value :=
  match jsonLoads s with
  | some v => .ok v
  | none => .error (.nameErr "config_file")

/-! ## Predicates for claim C8 (structural validation) -/
/-- Whether a value is a mapping. -/
def isDictV : Value → Bool
  | .dict _ => true
  | _ => false

/-! ## Predicates for claim C3 (the rendering-error policy) -/
/-- A unit whose render outcome does not abort the expansion: it compiles,
and if rendering raises, the error is one of the swallowed kinds. -/
def unitNonFatal (render : String → RenderResult) (t : String) : Prop :=
  match render t with
  | .compileErr _ => False
  | .renderOk _ => True
  | .renderErr e => swallowedErr e = true

/-- A unit whose render outcome aborts the expansion with error `e`. -/
def unitFatal (render : String → RenderResult) (t : String) (e : RenderErr) : Prop :=
  render t = .compileErr e ∨ (render t = .renderErr e ∧ swallowedErr e = false)

/-! ## Predicates for claim C2 (per-scalar resolution) -/
/-- The reassembled scalar as the spec describes it: every found unit is
substituted back (its rendering when resolved, its own text when left
literal), one `str.replace` at a time in unit order. -/
def reassemble (render : String → RenderResult) (s : String) : String :=
  ((findTemplates s).zip ((findTemplates s).map (specResolveUnit render))).foldl
    (fun a td => strReplace a td.1 td.2) s

/-! ## Predicates for claim C7 (the flatten/structure round trip) -/
/-- The leaf entries of a dictionary tree, in traversal order (entry
loop), with `recSub` the depth-bounded recursive call. -/
def leavesLoop (recSub : Dict → Dict) : Dict → Dict
  | [] => []
  | (k, v) :: rest =>
    match v with
    | .dict sub => recSub sub ++ leavesLoop recSub rest
    | _ => (k, v) :: leavesLoop recSub rest

/-- The leaf entries of a dictionary tree, to the given nesting depth. -/
def leavesF : Nat → Dict → Dict
  | 0, _ => []
  | fuel + 1, d => leavesLoop (leavesF fuel) d

/-- Entry loop of the tree well-formedness check: every mapping value is
non-empty and recursively well-formed. -/
def goodTreeLoop (recSub : Dict → Bool) : Dict → Bool
  | [] => true
  | (_, v) :: rest =>
    (match v with
     | .dict sub => !sub.isEmpty && recSub sub
     | _ => true) && goodTreeLoop recSub rest

/-- Well-formed dictionary tree to the given depth: keys are unique at
every level and no mapping value is empty. -/
def goodTreeB : Nat → Dict → Bool
  | 0, _ => false
  | fuel + 1, d => decide ((keys d).Nodup) && goodTreeLoop (goodTreeB fuel) d

/-! ## Predicates for claim C1 (the INI round trip) -/
/-- The value text `cfg_to_ini_str` writes between quotes (line 441):
`list_to_str`, then single quotes to double quotes and newlines to
spaces. -/
def serVal (fuel : Nat) (v : Value) : String :=
  strReplace (strReplace (listToStrF fuel v) "\x27" "\"") "\n" " "

/-- A section name the INI writer/reader pair keeps intact: free of
newlines and closing brackets. -/
def iniSafeSecB (s : String) : Bool :=
  s.data.all (fun c => !(c == '\n') && !(c == ']'))

/-- An option key the INI writer/reader pair keeps intact: nonempty, free
of newlines and of the `=`/`:` delimiters, not starting like a comment or a
section header, and not stripped at either end. -/
def iniSafeKeyB (k : String) : Bool :=
  (match k.data with
   | [] => false
   | c :: _ => !(c == '#') && !(c == ';') && !(c == '[') && !(isPyWs c)) &&
  (match k.data.getLast? with
   | none => false
   | some c => !(isPyWs c)) &&
  k.data.all (fun c => !(c == '\n') && !(iniDelim c))

/-- A scalar value the INI writer/reader pair keeps intact: booleans and
integers always; a string when the quote substitution of the writer does
not alter it (no single quote, no newline), the quote-and-whitespace strip
of the reader gives it back, and scalar inference returns it as a
string. -/
def iniProducibleValB : Value → Bool
  | .int _ => true
  | .bool _ => true
  | .str s =>
      s.data.all (fun c => !(c == '\x27') && !(c == '\n')) &&
      decide (quoteStrip (wsStrip ('\x27' :: s.data ++ ['\x27'])) = s.data) &&
      !(s == "True") && !(s == "False") && (parseIntStr s).isNone
  | _ => false

/-- A section body the INI writer/reader pair keeps intact. -/
def iniProducibleSecB (es : Dict) : Bool :=
  decide ((keys es).Nodup) &&
  es.all (fun e => iniSafeKeyB e.1 && iniProducibleValB e.2)

/-- A configuration producible by `load_ini_config` itself and kept intact
by the writer: a non-empty mapping of distinct sections, each holding a
mapping of distinct safe keys to producible scalars. -/
def iniProducibleB (cfg : Dict) : Bool :=
  !cfg.isEmpty && decide ((keys cfg).Nodup) &&
  cfg.all (fun e => iniSafeSecB e.1 &&
    (match e.2 with | .dict es => iniProducibleSecB es | _ => false))

/-- The serialized text as a newline-terminated line list. -/
def joinLines : List (List Char) → List Char
  | [] => []
  | l :: ls => l ++ '\n' :: joinLines ls

/-- The option lines of one section, as the serializer writes them. -/
def optLinesL (fuel : Nat) : Dict → List (List Char)
  | [] => []
  | (k, v) :: rest =>
      (k.data ++ ('=' :: '\x27' :: ((serVal fuel v).data ++ ['\x27']))) :: optLinesL fuel rest

/-- The lines of the whole serialized configuration. -/
def secLinesL (fuel : Nat) : Dict → List (List Char)
  | [] => []
  | (sec, v) :: rest =>
      (match v with
       | .dict es => (if substr "." sec then [] else [[]]) ++
           (('[' :: (sec.data ++ [']'])) :: optLinesL (fuel + 1) es)
       | _ => []) ++ secLinesL fuel rest

/-- The scalar-line text of one section (`ini_str` in the entry loop). -/
def optText (fuel : Nat) : Dict → String
  | [] => ""
  | (k, v) :: rest => (k ++ "=\x27" ++ serVal fuel v ++ "\x27\n" ++ optText fuel rest)

/-- The sub-block accumulation of the entry loop over mapping values. -/
def dictBlocks (recSub : Dict → Option String → String) : Dict → String
  | [] => ""
  | (k, v) :: rest =>
      (match v with | .dict es => recSub es (some k) | _ => "") ++ dictBlocks recSub rest

/-- The sub-block text of the whole configuration. -/
def secText (fuel : Nat) : Dict → String
  | [] => ""
  | (sec, v) :: rest =>
      (match v with
       | .dict es =>
           (if substr "." sec then "" else "\n") ++ "[" ++ sec ++ "]\n" ++
             optText (fuel + 1) es ++ ""
       | _ => "") ++ secText fuel rest

/-- The raw option strings the reader accumulates for one section of the
serialized text. -/
def rawOptsOf (fuel : Nat) : Dict → List (String × String)
  | [] => []
  | (k, v) :: rest =>
      (k, String.mk ('\x27' :: ((serVal (fuel + 1) v).data ++ ['\x27']))) :: rawOptsOf fuel rest

/-- The raw section list the reader accumulates for the serialized text. -/
def rawSecsOf (fuel : Nat) : Dict → List (String × List (String × String))
  | [] => []
  | (sec, v) :: rest =>
      (sec, match v with | .dict es => rawOptsOf fuel es | _ => []) :: rawSecsOf fuel rest

/-! ## Theorems -/

theorem keys_append (a b : Dict) : keys (a ++ b) = keys a ++ keys b := by
  simp [keys]

theorem lookup_eq_none_of_not_mem {d : Dict} {k : String} (h : k ∉ keys d) :
    lookup d k = none := by
  induction d with
  | nil => rfl
  | cons e rest ih =>
      obtain ⟨k1, v⟩ := e
      simp only [keys, List.map_cons, List.mem_cons] at h
      push_neg at h
      rw [lookup, if_neg (fun hh => h.1 hh.symm)]
      exact ih (by simpa [keys] using h.2)

theorem lookup_append_left {a : Dict} {k : String} (b : Dict) (h : k ∈ keys a) :
    lookup (a ++ b) k = lookup a k := by
  induction a with
  | nil => simp [keys] at h
  | cons e rest ih =>
      obtain ⟨k1, v⟩ := e
      rw [List.cons_append, lookup, lookup]
      by_cases hk : k1 = k
      · rw [if_pos hk, if_pos hk]
      · rw [if_neg hk, if_neg hk]
        simp only [keys, List.map_cons, List.mem_cons] at h
        rcases h with h | h
        · exact absurd h.symm hk
        · exact ih (by simpa [keys] using h)

theorem lookup_append_right {a : Dict} {k : String} (b : Dict) (h : k ∉ keys a) :
    lookup (a ++ b) k = lookup b k := by
  induction a with
  | nil => rfl
  | cons e rest ih =>
      obtain ⟨k1, v⟩ := e
      simp only [keys, List.map_cons, List.mem_cons] at h
      push_neg at h
      rw [List.cons_append, lookup, if_neg (fun hh => h.1 hh.symm)]
      exact ih (by simpa [keys] using h.2)

/-- Assigning a fresh key appends the entry at the end. -/
theorem setKey_fresh {d : Dict} {k : String} (v : Value) (h : k ∉ keys d) :
    setKey d k v = d ++ [(k, v)] := by
  induction d with
  | nil => rfl
  | cons e rest ih =>
      obtain ⟨k1, v1⟩ := e
      simp only [keys, List.map_cons, List.mem_cons] at h
      push_neg at h
      rw [setKey, if_neg (fun hh => h.1 hh.symm), List.cons_append]
      rw [ih (by simpa [keys] using h.2)]

/-- Updating with a dictionary of fresh, pairwise distinct keys appends it. -/
theorem dictUpdate_fresh : ∀ (r d : Dict), (∀ k, k ∈ keys r → k ∉ keys d) →
    (keys r).Nodup → dictUpdate d r = d ++ r
  | [], d, _, _ => by simp [dictUpdate]
  | (k, v) :: rest, d, hfresh, hnd => by
      simp only [keys, List.map_cons, List.nodup_cons] at hnd
      have h1 : k ∉ keys d := hfresh k (by simp [keys])
      have step : dictUpdate d ((k, v) :: rest) = dictUpdate (d ++ [(k, v)]) rest := by
        simp [dictUpdate, setKey_fresh v h1]
      rw [step, dictUpdate_fresh rest (d ++ [(k, v)])
        (by
          intro k2 hk2
          rw [keys_append]
          intro hmem
          rcases List.mem_append.mp hmem with hmem | hmem
          · exact hfresh k2 (List.mem_cons_of_mem _ hk2) hmem
          · simp only [keys, List.map_cons, List.map_nil, List.mem_singleton] at hmem
            exact hnd.1 (hmem ▸ hk2))
        hnd.2]
      simp

theorem delKey_lookup_self (d : Dict) (k : String) : lookup (delKey d k) k = none := by
  induction d with
  | nil => rfl
  | cons e rest ih =>
      obtain ⟨k1, v1⟩ := e
      rw [delKey]
      by_cases hk : k1 = k
      · rw [if_pos hk]; exact ih
      · rw [if_neg hk, lookup, if_neg hk]; exact ih

theorem delKey_lookup_other (d : Dict) (k k2 : String) (h : k2 ≠ k) :
    lookup (delKey d k) k2 = lookup d k2 := by
  induction d with
  | nil => rfl
  | cons e rest ih =>
      obtain ⟨k1, v1⟩ := e
      rw [delKey]
      by_cases hk : k1 = k
      · rw [if_pos hk, lookup, if_neg (fun hh => h (hh.symm.trans hk))]
        exact ih
      · rw [if_neg hk, lookup, lookup]
        by_cases hk2 : k1 = k2
        · rw [if_pos hk2, if_pos hk2]
        · rw [if_neg hk2, if_neg hk2]; exact ih

theorem containsSub_iff (pat : List Char) :
    ∀ s : List Char, containsSub pat s = true ↔ ∃ a b, s = a ++ pat ++ b
  | [] => by
      constructor
      · intro h
        refine ⟨[], [], ?_⟩
        simp only [containsSub, List.isEmpty_iff] at h
        simp [h]
      · rintro ⟨a, b, hab⟩
        have h0 : a ++ pat = [] ∧ b = [] := List.append_eq_nil.mp hab.symm
        have hp : pat = [] := (List.append_eq_nil.mp h0.1).2
        simp [containsSub, hp]
  | c :: rest => by
      rw [containsSub, Bool.or_eq_true]
      constructor
      · rintro (h | h)
        · rcases List.isPrefixOf_iff_prefix.mp h with ⟨t, ht⟩
          exact ⟨[], t, by simp [← ht]⟩
        · rcases (containsSub_iff pat rest).mp h with ⟨a, b, hab⟩
          exact ⟨c :: a, b, by simp [hab]⟩
      · rintro ⟨a, b, hab⟩
        match a, hab with
        | [], hab =>
            left
            rw [List.isPrefixOf_iff_prefix]
            exact ⟨b, by simpa using hab.symm⟩
        | a1 :: as, hab =>
            right
            rw [containsSub_iff pat rest]
            exact ⟨as, b, by simpa using (List.cons_eq_cons.mp hab).2⟩

theorem mem_of_containsSub {pat s : List Char} {c : Char}
    (h : containsSub pat s = true) (hc : c ∈ pat) : c ∈ s := by
  rcases (containsSub_iff pat s).mp h with ⟨a, b, rfl⟩
  simp [hc]

theorem containsSub_trans {p q s : List Char}
    (hpq : containsSub p q = true) (hqs : containsSub q s = true) :
    containsSub p s = true := by
  rcases (containsSub_iff q s).mp hqs with ⟨a2, b2, rfl⟩
  rcases (containsSub_iff p q).mp hpq with ⟨a, b, rfl⟩
  exact (containsSub_iff p _).mpr ⟨a2 ++ a, b ++ b2, by simp⟩

/-- Replacement is the identity when the pattern does not occur. -/
theorem replaceCharsF_not_contains (pat repl : List Char) :
    ∀ (fuel : Nat) (s : List Char), containsSub pat s = false →
      replaceCharsF pat repl fuel s = s := by
  intro fuel
  induction fuel with
  | zero => intro s _; rw [replaceCharsF]
  | succ fuel ih =>
      intro s h
      cases s with
      | nil => rw [replaceCharsF]
      | cons c rest =>
          rw [containsSub] at h
          simp only [Bool.or_eq_false_iff] at h
          rw [replaceCharsF]
          split
          · next hcond => rw [hcond.2] at h; exact absurd h.1 (by simp)
          · next => rw [ih rest h.2]

theorem strReplace_not_contains {s pat : String} (repl : String)
    (h : containsSub pat.data s.data = false) : strReplace s pat repl = s := by
  cases s with
  | mk data =>
      simp only [strReplace]
      rw [replaceCharsF_not_contains _ _ _ _ h]

theorem dropWhile_eq_self_of_head {p : Char → Bool} :
    ∀ {l : List Char}, (∀ h : l ≠ [], p (l.head h) = false) → l.dropWhile p = l
  | [], _ => rfl
  | c :: rest, h => by
      have hc : p c = false := h (by simp)
      simp [List.dropWhile_cons, hc]

/-- Stripping is the identity when both ends fail the predicate. -/
theorem stripChars_eq_self {p : Char → Bool} {l : List Char}
    (h1 : ∀ h : l ≠ [], p (l.head h) = false)
    (h2 : ∀ h : l ≠ [], p (l.getLast h) = false) :
    stripChars p l = l := by
  unfold stripChars
  rw [dropWhile_eq_self_of_head h1]
  have h3 : l.reverse.dropWhile p = l.reverse := by
    apply dropWhile_eq_self_of_head
    intro hh
    rw [List.head_reverse hh]
    exact h2 (by simpa using hh)
  rw [h3, List.reverse_reverse]

theorem parseDigitsAux_append : ∀ (a b : List Char) (acc : Nat),
    parseDigitsAux (a ++ b) acc =
      match parseDigitsAux a acc with
      | some m => parseDigitsAux b m
      | none => none
  | [], b, acc => by simp [parseDigitsAux]
  | c :: rest, b, acc => by
      rw [List.cons_append, parseDigitsAux, parseDigitsAux]
      cases digitVal c with
      | some d => exact parseDigitsAux_append rest b (acc * 10 + d)
      | none => rfl

theorem decDigit_val {n : Nat} (h : n < 10) : digitVal (decDigit n) = some n := by
  interval_cases n <;> decide

theorem decDigit_isDigit {n : Nat} (h : n < 10) : (decDigit n).isDigit = true := by
  interval_cases n <;> decide

theorem natToDecCharsF_parse : ∀ (fuel n acc : Nat), n < fuel →
    ∃ p : Nat, 0 < p ∧ parseDigitsAux (natToDecCharsF fuel n) acc = some (acc * p + n) := by
  intro fuel
  induction fuel with
  | zero => intro n acc h; omega
  | succ fuel ih =>
      intro n acc h
      rw [natToDecCharsF]
      split
      · next hlt =>
          exact ⟨10, by omega, by simp [parseDigitsAux, decDigit_val hlt]⟩
      · next hge =>
          have hdiv : n / 10 < fuel := by omega
          rcases ih (n / 10) acc hdiv with ⟨p, hp, hrec⟩
          refine ⟨p * 10, by omega, ?_⟩
          rw [parseDigitsAux_append, hrec]
          simp only [parseDigitsAux, decDigit_val (Nat.mod_lt n (by omega))]
          congr 1
          have hmod := Nat.div_add_mod n 10
          calc (acc * p + n / 10) * 10 + n % 10
              = acc * (p * 10) + (n / 10 * 10 + n % 10) := by ring
            _ = acc * (p * 10) + n := by omega

theorem natToDecCharsF_digits : ∀ (fuel n : Nat), ∀ c ∈ natToDecCharsF fuel n,
    c.isDigit = true := by
  intro fuel
  induction fuel with
  | zero => intro n c hc; rw [natToDecCharsF] at hc; simp at hc
  | succ fuel ih =>
      intro n c hc
      rw [natToDecCharsF] at hc
      split at hc
      · next h =>
          rw [List.mem_singleton] at hc
          exact hc ▸ decDigit_isDigit h
      · next h =>
          rcases List.mem_append.mp hc with hc | hc
          · exact ih (n / 10) c hc
          · rw [List.mem_singleton] at hc
            exact hc ▸ decDigit_isDigit (Nat.mod_lt n (by omega))

theorem natToDecChars_digits (n : Nat) : ∀ c ∈ natToDecChars n, c.isDigit = true :=
  natToDecCharsF_digits (n + 1) n

theorem natToDecChars_ne_nil (n : Nat) : natToDecChars n ≠ [] := by
  rw [natToDecChars, natToDecCharsF]
  split
  · simp
  · exact fun hh => by simpa using (List.append_eq_nil.mp hh).2

theorem parseDigits_natToDecChars (n : Nat) :
    parseDigitsAux (natToDecChars n) 0 = some n := by
  rcases natToDecCharsF_parse (n + 1) n 0 (by omega) with ⟨p, _, h⟩
  simpa [natToDecChars] using h

/-- Printing an integer with `str()` and reading it back with `int()` is the
identity. -/
theorem parseIntStr_intToDecStr (n : Int) : parseIntStr (intToDecStr n) = some n := by
  unfold parseIntStr intToDecStr
  split
  · next h =>
      show parseIntChars ('-' :: natToDecChars n.natAbs) = some n
      rw [parseIntChars, if_pos rfl, if_neg (natToDecChars_ne_nil _),
        parseDigits_natToDecChars]
      show some (-(n.natAbs : Int)) = some n
      congr 1
      omega
  · next h =>
      show parseIntChars (natToDecChars n.natAbs) = some n
      cases hnat : natToDecChars n.natAbs with
      | nil => exact absurd hnat (natToDecChars_ne_nil _)
      | cons c rest =>
          have hdig : c.isDigit = true := natToDecChars_digits _ c (by rw [hnat]; simp)
          have hcne : ¬ c = '-' := by
            intro hcc
            rw [hcc] at hdig
            exact absurd hdig (by decide)
          rw [parseIntChars, if_neg hcne, ← hnat, parseDigits_natToDecChars]
          show some ((n.natAbs : Int)) = some n
          congr 1
          omega

theorem parseDigitsAux_digits {l : List Char} {acc m : Nat}
    (h : parseDigitsAux l acc = some m) : ∀ c ∈ l, c.isDigit = true := by
  induction l generalizing acc with
  | nil => intro c hc; simp at hc
  | cons c1 rest ih =>
      intro c hc
      rw [parseDigitsAux] at h
      cases hd : digitVal c1 with
      | none => rw [hd] at h; exact absurd h (by simp)
      | some d =>
          rw [hd] at h
          rcases List.mem_cons.mp hc with hc | hc
          · subst hc
            unfold digitVal at hd
            split at hd
            · next hrange => exact hrange
            · exact absurd hd (by simp)
          · exact ih h c hc

/-- `int()` fails on any string containing a character that is neither a
digit nor a leading minus sign; in particular on template braces. -/
theorem parseIntChars_none_of_brace {l : List Char} (h : '\x7b' ∈ l) :
    parseIntChars l = none := by
  cases l with
  | nil => rfl
  | cons c rest =>
      rw [parseIntChars]
      by_cases hc : c = '-'
      · rw [if_pos hc]
        cases hr : rest with
        | nil => rfl
        | cons c2 rest2 =>
            rw [if_neg (by simp)]
            cases hp : parseDigitsAux (c2 :: rest2) 0 with
            | none => rfl
            | some m =>
                rcases List.mem_cons.mp h with hbc | hb
                · exact absurd hbc.symm (by rw [hc]; decide)
                · have := parseDigitsAux_digits hp '\x7b' (hr ▸ hb)
                  exact absurd this (by decide)
      · rw [if_neg hc]
        cases hp : parseDigitsAux (c :: rest) 0 with
        | none => rfl
        | some m =>
            have := parseDigitsAux_digits hp '\x7b' h
            exact absurd this (by decide)

theorem splitNL_ne_nil : ∀ l : List Char, splitNL l ≠ []
  | [] => by simp [splitNL]
  | c :: rest => by
      rw [splitNL]
      split
      · simp
      · cases h : splitNL rest <;> simp

/-- Splitting a newline-terminated, newline-free line off the front. -/
theorem splitNL_line {l : List Char} (h : '\n' ∉ l) (rest : List Char) :
    splitNL (l ++ '\n' :: rest) = l :: splitNL rest := by
  induction l with
  | nil => simp [splitNL]
  | cons c cs ih =>
      have hc : ¬ c = '\n' := fun hcc => h (by simp [hcc])
      rw [List.cons_append, splitNL, if_neg hc, ih (fun hm => h (by simp [hm]))]

theorem pyStrF_str (fuel : Nat) (s : String) : pyStrF fuel (.str s) = s := rfl

theorem pyStrF_bool (fuel : Nat) (b : Bool) :
    pyStrF (fuel + 1) (.bool b) = (if b then "True" else "False") := by
  cases b <;> rfl

theorem pyStrF_null (fuel : Nat) : pyStrF (fuel + 1) .null = "None" := rfl

/-- Scalar inference is the identity on any string containing a left brace,
in particular on strings still holding template syntax. -/
theorem strToType_brace {s : String} (h : '\x7b' ∈ s.data) : strToType s = .str s := by
  have h1 : s ≠ "True" := by rintro rfl; exact absurd h (by decide)
  have h2 : s ≠ "False" := by rintro rfl; exact absurd h (by decide)
  have h3 : parseIntStr s = none := parseIntChars_none_of_brace h
  rw [strToType, if_neg h1, if_neg h2, h3]

theorem takeUntilChar_snd_length (stop : Char) :
    ∀ l : List Char, (takeUntilChar stop l).2.length ≤ l.length
  | [] => by simp [takeUntilChar]
  | c :: rest => by
      rw [takeUntilChar]
      split
      · simp
      · have := takeUntilChar_snd_length stop rest
        simp only [List.length_cons]
        omega

theorem takeUntilChar_append (stop : Char) :
    ∀ l : List Char, (takeUntilChar stop l).1 ++ (takeUntilChar stop l).2 = l
  | [] => by simp [takeUntilChar]
  | c :: rest => by
      rw [takeUntilChar]
      split
      · simp
      · have := takeUntilChar_append stop rest
        simp only [List.cons_append, List.cons.injEq, true_and]
        exact this

theorem tplRest_length (rest : List Char) : (tplRest rest).length ≤ rest.length := by
  have h1 := takeUntilChar_snd_length '\x7d' rest
  simp only [tplRest, List.length_drop]
  omega

/-- Every unit found by the scanner contains the template opener. -/
theorem findTemplatesAuxF_brace : ∀ (fuel : Nat) (l : List Char),
    ∀ t ∈ findTemplatesAuxF fuel l, containsSub tmplOpen.data t = true := by
  intro fuel
  induction fuel with
  | zero => intro l t ht; rw [findTemplatesAuxF] at ht; simp at ht
  | succ fuel ih =>
      intro l t ht
      match l, ht with
      | [], ht => rw [findTemplatesAuxF] at ht; simp at ht
      | [c], ht => rw [findTemplatesAuxF] at ht; simp at ht
      | c1 :: c2 :: rest, ht => next =>
          rw [findTemplatesAuxF] at ht
          split at ht
          · rcases List.mem_cons.mp ht with ht | ht
            · subst ht
              exact (containsSub_iff _ _).mpr
                ⟨[], (takeUntilChar '\x7d' rest).1 ++ ['\x7d', '\x7d'], rfl⟩
            · exact ih (tplRest rest) t ht
          · exact ih (c2 :: rest) t ht

theorem findTemplates_brace {s : String} {t : String} (h : t ∈ findTemplates s) :
    substr tmplOpen t = true := by
  rcases List.mem_map.mp h with ⟨tl, htl, rfl⟩
  exact findTemplatesAuxF_brace _ _ tl htl

/-! ## Claim C5: a `Null` source value deletes a present target key -/
/-- C5: merging a source mapping whose value at a key `k` present in the
target is `Null` deletes `k` from the target and leaves every other entry
unchanged; in particular `update_dict({"a": Null}, {"a": 1, "b": 2})`
leaves the target equal to `{"b": 2}`. -/
theorem c5_null_source_deletes_key (fuel : Nat) (pd : Bool) (t : Dict) (k : String)
    (h : k ∈ keys t) :
    updateDictF (fuel + 1) pd [(k, .null)] t = .ok (delKey t k) ∧
    lookup (delKey t k) k = none ∧
    (∀ k2, k2 ≠ k → lookup (delKey t k) k2 = lookup t k2) ∧
    updateDictF 1 false [("a", .null)] [("a", .int 1), ("b", .int 2)] = .ok [("b", .int 2)] := by
  refine ⟨?_, delKey_lookup_self t k, fun k2 h2 => delKey_lookup_other t k k2 h2, rfl⟩
  show updateLoopF (updateDictF fuel pd) pd [(k, .null)] t = .ok (delKey t k)
  rw [updateLoopF, if_pos h]
  rfl

theorem c5_null_source_deletes_key_witness :
    ("a" ∈ keys [("a", Value.int 1), ("b", Value.int 2)]) ∧
    updateDictF 1 false [("a", .null)] [("a", .int 1), ("b", .int 2)] =
      .ok (delKey [("a", .int 1), ("b", .int 2)] "a") :=
  ⟨by decide, (c5_null_source_deletes_key 0 false [("a", .int 1), ("b", .int 2)] "a"
    (by decide)).1⟩

/-! ## Claim C10: a `Null` source value inserts an absent target key -/
/-- C10 (implicit): merging a source mapping whose value at a key `k`
absent from the target is `Null` inserts the entry `k = Null` at the end of
the target rather than leaving it unchanged, so deletion via `Null` applies
only to keys already present and a merge can introduce `Null`-valued
keys. -/
theorem c10_null_source_inserts_key (fuel : Nat) (pd : Bool) (t : Dict) (k : String)
    (h : k ∉ keys t) :
    updateDictF (fuel + 1) pd [(k, .null)] t = .ok (t ++ [(k, .null)]) ∧
    lookup (t ++ [(k, .null)]) k = some .null := by
  constructor
  · show updateLoopF (updateDictF fuel pd) pd [(k, .null)] t = .ok (t ++ [(k, .null)])
    rw [updateLoopF, if_neg h]
    show Except.ok (setKey t k .null) = _
    rw [setKey_fresh _ h]
  · rw [lookup_append_right _ h]
    simp [lookup]

theorem c10_null_source_inserts_key_witness :
    ("x" ∉ keys [("a", Value.int 1)]) ∧
    updateDictF 1 false [("x", .null)] [("a", .int 1)] =
      .ok ([("a", Value.int 1)] ++ [("x", .null)]) :=
  ⟨by decide, (c10_null_source_inserts_key 0 false [("a", .int 1)] "x" (by decide)).1⟩

/-! ## Claim C6: provide-default mode (code bug: `len` of a number) -/
/-- C6 (code bug): in provide-default mode the overwrite test evaluates
`len(dict_t[k])` unconditionally after the `None` check, so for a target
value that is a number or boolean the call raises `TypeError` instead of
preserving the existing value: `update_dict({"a": 5}, {"a": 9},
provide_default=True)` crashes rather than yielding `{"a": 9}`.  The first
spec example (an empty-string target value is overwritten) does hold, as
does preservation of non-empty, template-free string values. -/
theorem c6_provide_default_len_typeerror :
    updateDictF 1 true [("a", .int 5)] [("a", .str "")] = .ok [("a", .int 5)] ∧
    updateDictF 1 true [("a", .int 5)] [("a", .int 9)] = .error "TypeError" ∧
    (∀ (fuel : Nat) (t : Dict) (k : String) (n m : Int), lookup t k = some (.int m) →
      updateDictF (fuel + 1) true [(k, .int n)] t = .error "TypeError") ∧
    (∀ (fuel : Nat) (t : Dict) (k : String) (n : Int) (b : Bool),
      lookup t k = some (.bool b) →
      updateDictF (fuel + 1) true [(k, .int n)] t = .error "TypeError") ∧
    (∀ (fuel : Nat) (t : Dict) (k : String) (n : Int) (s : String),
      lookup t k = some (.str s) → s.length ≠ 0 → substr tmplOpen s = false →
      updateDictF (fuel + 1) true [(k, .int n)] t = .ok t) := by
  refine ⟨rfl, rfl, ?_, ?_, ?_⟩
  · intro fuel t k n m h
    show updateLoopF (updateDictF fuel true) true [(k, .int n)] t = .error "TypeError"
    simp only [updateLoopF, h]
    rfl
  · intro fuel t k n b h
    show updateLoopF (updateDictF fuel true) true [(k, .int n)] t = .error "TypeError"
    simp only [updateLoopF, h]
    rfl
  · intro fuel t k n s h hne htmpl
    show updateLoopF (updateDictF fuel true) true [(k, .int n)] t = .ok t
    simp only [updateLoopF, h]
    have hlen : (s.length == 0) = false := by
      simp only [beq_eq_false_iff_ne, ne_eq]
      exact hne
    show (do
      let overwrite ← (pure (s.length == 0 || substr tmplOpen s) : Except String Bool)
      if overwrite then updateLoopF (updateDictF fuel true) true [] (setKey t k (.int n))
      else updateLoopF (updateDictF fuel true) true [] t) = .ok t
    rw [hlen, htmpl]
    rfl

theorem c6_provide_default_len_typeerror_witness :
    updateDictF 1 true [("a", .int 7)] [("a", .int 9)] = .error "TypeError" ∧
    updateDictF 1 true [("b", .int 7)] [("b", .str "keep")] = .ok [("b", .str "keep")] :=
  ⟨c6_provide_default_len_typeerror.2.2.1 0 [("a", .int 9)] "a" 7 9 rfl,
   c6_provide_default_len_typeerror.2.2.2.2 0 [("b", .str "keep")] "b" 7 "keep" rfl
     (by decide) rfl⟩

/-! ## Claim C9: the JSON error path (code bug: `NameError`) -/
/-- C9 (code bug): for an input string that is not a file path and not
valid JSON, `load_json_config` catches the `JSONDecodeError` and then
evaluates `f"Unable to load json file ..."` referring to the name
`config_file`, which is not defined in the function (its parameter is
`config_file_or_string`); the handler therefore raises a bare `NameError`
that does not identify the offending document, instead of the intended
descriptive parse error. -/
theorem c9_json_error_is_nameerror :
    jsonLoads "\x7binvalid" = none ∧
    loadJsonConfig "\x7binvalid" = .error (.nameErr "config_file") ∧
    (∀ s, jsonLoads s = none → loadJsonConfig s = .error (.nameErr "config_file")) := by
  refine ⟨rfl, rfl, ?_⟩
  intro s h
  simp [loadJsonConfig, h]

theorem c9_json_error_is_nameerror_witness :
    loadJsonConfig "not json" = .error (.nameErr "config_file") :=
  c9_json_error_is_nameerror.2.2 "not json" rfl

theorem checkLoopF_flat (recSub : Dict → Dict → Dict) (t : Dict) :
    ∀ (o inval : Dict),
      (o.all fun e => !isDictV e.2) = true → (keys o).Nodup →
      (∀ k, k ∈ keys inval → k ∉ keys o) →
      checkLoopF recSub t inval o = inval ++ o.filter (fun e => (lookup t e.1).isNone) := by
  intro o
  induction o with
  | nil => intro inval _ _ _; simp [checkLoopF]
  | cons e rest ih =>
      obtain ⟨k, v⟩ := e
      intro inval hflat hnd hdisj
      rw [List.all_cons, Bool.and_eq_true] at hflat
      simp only [keys, List.map_cons, List.nodup_cons] at hnd
      cases hlk : lookup t k with
      | some v1 =>
          have harm : checkLoopF recSub t inval ((k, v) :: rest) =
              checkLoopF recSub t inval rest := by
            rw [checkLoopF, hlk]
            cases v with
            | dict sub => exact absurd hflat.1 (by simp [isDictV])
            | null => rfl
            | bool b => rfl
            | int n => rfl
            | str s => rfl
            | list l => rfl
          rw [harm, ih inval hflat.2 hnd.2
            (fun k2 hk2 hmem => hdisj k2 hk2 (List.mem_cons_of_mem _ hmem))]
          have hfilter : ((k, v) :: rest).filter (fun e => (lookup t e.1).isNone) =
              rest.filter (fun e => (lookup t e.1).isNone) := by
            simp [List.filter_cons, hlk]
          rw [hfilter]
      | none =>
          have hkni : k ∉ keys inval := fun hk => hdisj k hk (by simp [keys])
          have harm : checkLoopF recSub t inval ((k, v) :: rest) =
              checkLoopF recSub t (setKey inval k v) rest := by
            rw [checkLoopF, hlk]
          rw [harm, setKey_fresh v hkni, ih (inval ++ [(k, v)]) hflat.2 hnd.2 ?hdisj2]
          · have hfilter : ((k, v) :: rest).filter (fun e => (lookup t e.1).isNone) =
                (k, v) :: rest.filter (fun e => (lookup t e.1).isNone) := by
              simp [List.filter_cons, hlk]
            rw [hfilter]
            simp
          · intro k2 hk2
            rw [keys_append] at hk2
            rcases List.mem_append.mp hk2 with hk2 | hk2
            · exact fun hmem => hdisj k2 hk2 (List.mem_cons_of_mem _ hmem)
            · simp only [keys, List.map_cons, List.map_nil, List.mem_singleton] at hk2
              subst hk2
              exact hnd.1

/-- C8: `check_structure_dict` returns only the candidate entries that are
invalid: for a flat candidate this is exactly the entries whose keys are
absent from the template (keys present in the template are omitted), an
empty result meaning structurally valid; a key present in both whose
values are both mappings contributes only its recursively-found invalid
sub-entries.  In particular `check_structure_dict({"x": 1, "y": 2},
{"x": 1})` yields `{"y": 2}` and `check_structure_dict({"x": 1},
{"x": 1})` yields `{}`. -/
theorem c8_check_structure (fuel : Nat) (o t : Dict)
    (hflat : (o.all fun e => !isDictV e.2) = true)
    (hnd : (keys o).Nodup) :
    checkStructureDictF (fuel + 1) o t = o.filter (fun e => (lookup t e.1).isNone) ∧
    checkStructureDictF 1 [("x", .int 1), ("y", .int 2)] [("x", .int 1)] = [("y", .int 2)] ∧
    checkStructureDictF 1 [("x", .int 1)] [("x", .int 1)] = [] ∧
    checkStructureDictF 2 [("a", .dict [("b", .int 1), ("c", .int 2)])]
      [("a", .dict [("b", .int 0)])] = [("c", .int 2)] := by
  refine ⟨?_, rfl, rfl, rfl⟩
  show checkLoopF _ t [] o = _
  rw [checkLoopF_flat _ t o [] hflat hnd (by intro k hk; simp [keys] at hk)]
  simp

theorem renderUnits_ok_of_nonFatal (render : String → RenderResult) :
    ∀ ts : List String, (∀ t ∈ ts, unitNonFatal render t) →
      renderUnits render ts = .ok (ts.map (specResolveUnit render)) := by
  intro ts
  induction ts with
  | nil => intro _; rfl
  | cons t rest ih =>
      intro h
      have ht := h t (by simp)
      have hrest := ih (fun u hu => h u (by simp [hu]))
      have hspec_ok : ∀ r, render t = .renderOk r → specResolveUnit render t = r := by
        intro r hh
        rw [specResolveUnit, hh]
      have hspec_err : ∀ e, render t = .renderErr e → specResolveUnit render t = t := by
        intro e hh
        rw [specResolveUnit, hh]
      rw [renderUnits]
      unfold unitNonFatal at ht
      cases hrt : render t with
      | compileErr e =>
          rw [hrt] at ht
          simp at ht
      | renderOk r =>
          show Except.map (fun ds => r :: ds) (renderUnits render rest) =
            Except.ok (List.map (specResolveUnit render) (t :: rest))
          rw [hrest]
          show Except.ok (r :: List.map (specResolveUnit render) rest) =
            Except.ok (List.map (specResolveUnit render) (t :: rest))
          rw [List.map_cons, hspec_ok r hrt]
      | renderErr e =>
          rw [hrt] at ht
          have ht2 : swallowedErr e = true := ht
          show (if swallowedErr e = true then
              Except.map (fun ds => t :: ds) (renderUnits render rest)
            else Except.error e) =
            Except.ok (List.map (specResolveUnit render) (t :: rest))
          rw [if_pos ht2, hrest]
          show Except.ok (t :: List.map (specResolveUnit render) rest) =
            Except.ok (List.map (specResolveUnit render) (t :: rest))
          rw [List.map_cons, hspec_err e hrt]

theorem renderUnits_error_at (render : String → RenderResult) (e : RenderErr) :
    ∀ (pre : List String) (t : String) (post : List String),
      (∀ u ∈ pre, unitNonFatal render u) → unitFatal render t e →
      renderUnits render (pre ++ t :: post) = .error e := by
  intro pre
  induction pre with
  | nil =>
      intro t post _ hf
      rw [List.nil_append, renderUnits]
      rcases hf with hf | hf
      · rw [hf]
      · rw [hf.1]
        show (if swallowedErr e = true then
            Except.map (fun ds => t :: ds) (renderUnits render post)
          else Except.error e) = Except.error e
        rw [if_neg (by simp [hf.2])]
  | cons u rest ih =>
      intro t post hpre hf
      have hu := hpre u (by simp)
      have hrec := ih t post (fun w hw => hpre w (by simp [hw])) hf
      rw [List.cons_append, renderUnits]
      unfold unitNonFatal at hu
      cases hru : render u with
      | compileErr e2 =>
          rw [hru] at hu
          simp at hu
      | renderOk r =>
          show Except.map (fun ds => r :: ds) (renderUnits render (rest ++ t :: post)) =
            Except.error e
          rw [hrec]
          rfl
      | renderErr e2 =>
          rw [hru] at hu
          have hu2 : swallowedErr e2 = true := hu
          show (if swallowedErr e2 = true then
              Except.map (fun ds => u :: ds) (renderUnits render (rest ++ t :: post))
            else Except.error e2) = Except.error e
          rw [if_pos hu2, hrec]
          rfl

/-- C3: during template expansion, a unit whose rendering raises an
undefined-variable, value, type, or division error is left unchanged in the
output and expansion continues with the next unit; when every unit is
non-fatal the unit outcomes are exactly the spec-level per-unit resolution;
any other error raised while compiling or rendering a unit propagates and
aborts the whole expansion with that error. -/
theorem c3_render_error_policy (render : String → RenderResult) :
    (∀ t r, render t = .renderOk r → specResolveUnit render t = r) ∧
    (∀ t e, render t = .renderErr e → specResolveUnit render t = t) ∧
    (∀ ts : List String, (∀ t ∈ ts, unitNonFatal render t) →
       renderUnits render ts = .ok (ts.map (specResolveUnit render))) ∧
    (∀ (pre : List String) (t : String) (post : List String) (e : RenderErr),
       (∀ u ∈ pre, unitNonFatal render u) → unitFatal render t e →
       renderUnits render (pre ++ t :: post) = .error e) := by
  refine ⟨?_, ?_, renderUnits_ok_of_nonFatal render,
    fun pre t post e => renderUnits_error_at render e pre t post⟩
  · intro t r h
    rw [specResolveUnit, h]
  · intro t e h
    rw [specResolveUnit, h]

theorem c3_render_error_policy_witness :
    renderUnits (jinjaRenderF 1 [("a", Value.int 1)])
      ["\x7b\x7b a \x7d\x7d", "\x7b\x7b b \x7d\x7d"] =
      .ok (["\x7b\x7b a \x7d\x7d", "\x7b\x7b b \x7d\x7d"].map
        (specResolveUnit (jinjaRenderF 1 [("a", Value.int 1)]))) ∧
    renderUnits (jinjaRenderF 1 [("a", Value.int 1)])
      (["\x7b\x7b b \x7d\x7d"] ++ "zzz" :: []) =
      .error (.otherErr "TemplateSyntaxError") := by
  constructor
  · refine (c3_render_error_policy (jinjaRenderF 1 [("a", Value.int 1)])).2.2.1 _ ?_
    intro t ht
    rcases List.mem_cons.mp ht with rfl | ht
    · exact trivial
    · rcases List.mem_cons.mp ht with rfl | ht
      · exact rfl
      · simp at ht
  · refine (c3_render_error_policy (jinjaRenderF 1 [("a", Value.int 1)])).2.2.2
      ["\x7b\x7b b \x7d\x7d"] "zzz" [] (.otherErr "TemplateSyntaxError") ?_ (Or.inl rfl)
    intro u hu
    rcases List.mem_cons.mp hu with rfl | hu
    · exact rfl
    · simp at hu

theorem extendScalarF_str_reduce (fuel : Nat) (render : String → RenderResult) (s : String)
    (hbb : substr tmplOpen s = true) (hpb : substr stmtOpen s = false)
    (hnf : ∀ t ∈ findTemplates s, unitNonFatal render t) :
    extendScalarF fuel render (.str s) =
      .ok (if (findTemplates s).all (fun t => ! substr "string" t)
           then strToType (reassemble render s) else .str (reassemble render s)) := by
  show (if substr tmplOpen s || substr stmtOpen s then
      (renderUnits render (if substr stmtOpen s then [s] else findTemplates s)).map
        (fun data =>
          let out := ((if substr stmtOpen s then [s] else findTemplates s).zip data).foldl
            (fun a td => strReplace a td.1 td.2) s
          if (if substr stmtOpen s then [s] else findTemplates s).all
              (fun t => ! substr "string" t) then strToType out
          else .str out)
    else .ok (.str s)) = _
  rw [hbb, hpb]
  show (renderUnits render (findTemplates s)).map _ = _
  rw [renderUnits_ok_of_nonFatal render _ hnf]
  rfl

/-- C2: for a string scalar whose units all resolve, the reassembled string
is passed through scalar type coercion unless some unit text contains the
literal substring `string`, in which case it stays a string; a scalar with
a unit left unresolved (still occurring in the reassembled string) remains
a string exactly as reassembled.  In particular expanding
`"(( a ))-(( b ))"`-shaped input with scope `a = 1` and no `b` yields the
string `1-(( b ))` (with double braces), and expanding a lone `a` unit
yields the integer `1`. -/
theorem c2_scalar_resolution (render : String → RenderResult) (s : String)
    (hbb : substr tmplOpen s = true) (hpb : substr stmtOpen s = false) :
    ((∀ t ∈ findTemplates s, ∃ r, render t = .renderOk r) →
      ((∀ t ∈ findTemplates s, substr "string" t = false) →
        ∀ fuel, extendScalarF fuel render (.str s) = .ok (strToType (reassemble render s))) ∧
      ((∃ t ∈ findTemplates s, substr "string" t = true) →
        ∀ fuel, extendScalarF fuel render (.str s) = .ok (.str (reassemble render s)))) ∧
    ((∀ t ∈ findTemplates s, unitNonFatal render t) →
     (∃ t ∈ findTemplates s, (∃ e, render t = .renderErr e) ∧
        containsSub t.data (reassemble render s).data = true) →
     ∀ fuel, extendScalarF fuel render (.str s) = .ok (.str (reassemble render s))) ∧
    extendScalarF 1 (jinjaRenderF 1 [("a", .int 1)])
      (.str "\x7b\x7b a \x7d\x7d-\x7b\x7b b \x7d\x7d") = .ok (.str "1-\x7b\x7b b \x7d\x7d") ∧
    extendScalarF 1 (jinjaRenderF 1 [("a", .int 1)]) (.str "\x7b\x7b a \x7d\x7d") =
      .ok (.int 1) := by
  refine ⟨?_, ?_, rfl, rfl⟩
  · intro hok
    have hnf : ∀ t ∈ findTemplates s, unitNonFatal render t := by
      intro t ht
      rcases hok t ht with ⟨r, hr⟩
      unfold unitNonFatal
      rw [hr]
      trivial
    constructor
    · intro hnostr fuel
      rw [extendScalarF_str_reduce fuel render s hbb hpb hnf,
        if_pos (List.all_eq_true.mpr (fun t ht => by rw [hnostr t ht]; rfl))]
    · rintro ⟨t, ht, hstr⟩ fuel
      rw [extendScalarF_str_reduce fuel render s hbb hpb hnf, if_neg]
      intro hall
      have := List.all_eq_true.mp hall t ht
      rw [hstr] at this
      exact absurd this (by decide)
  · rintro hnf ⟨t, ht, ⟨e, he⟩, hocc⟩ fuel
    rw [extendScalarF_str_reduce fuel render s hbb hpb hnf]
    split
    · next =>
        have hb1 : containsSub tmplOpen.data t.data = true := findTemplates_brace ht
        have hb2 : containsSub tmplOpen.data (reassemble render s).data = true :=
          containsSub_trans hb1 hocc
        have hbrace : '\x7b' ∈ (reassemble render s).data :=
          mem_of_containsSub hb2 (by decide)
        rw [strToType_brace hbrace]
    · next => rfl

theorem c2_scalar_resolution_witness :
    extendScalarF 1 (jinjaRenderF 1 [("a", Value.int 1)]) (.str "\x7b\x7b a \x7d\x7d") =
      .ok (strToType (reassemble (jinjaRenderF 1 [("a", Value.int 1)])
        "\x7b\x7b a \x7d\x7d")) ∧
    extendScalarF 1 (jinjaRenderF 1 [("a", Value.int 1)])
      (.str "\x7b\x7b a \x7d\x7d-\x7b\x7b b \x7d\x7d") =
      .ok (.str (reassemble (jinjaRenderF 1 [("a", Value.int 1)])
        "\x7b\x7b a \x7d\x7d-\x7b\x7b b \x7d\x7d")) := by
  have heq1 : findTemplates "\x7b\x7b a \x7d\x7d" = ["\x7b\x7b a \x7d\x7d"] := rfl
  have heq2 : findTemplates "\x7b\x7b a \x7d\x7d-\x7b\x7b b \x7d\x7d" =
      ["\x7b\x7b a \x7d\x7d", "\x7b\x7b b \x7d\x7d"] := rfl
  constructor
  · exact ((c2_scalar_resolution (jinjaRenderF 1 [("a", Value.int 1)])
      "\x7b\x7b a \x7d\x7d" rfl rfl).1 (by
        intro t ht
        rw [heq1] at ht
        rcases List.mem_cons.mp ht with rfl | ht
        · exact ⟨"1", rfl⟩
        · simp at ht)).1 (by
        intro t ht
        rw [heq1] at ht
        rcases List.mem_cons.mp ht with rfl | ht
        · rfl
        · simp at ht) 1
  · exact (c2_scalar_resolution (jinjaRenderF 1 [("a", Value.int 1)])
      "\x7b\x7b a \x7d\x7d-\x7b\x7b b \x7d\x7d" rfl rfl).2.1 (by
        intro t ht
        rw [heq2] at ht
        rcases List.mem_cons.mp ht with rfl | ht
        · exact trivial
        · rcases List.mem_cons.mp ht with rfl | ht
          · exact rfl
          · simp at ht)
      ⟨"\x7b\x7b b \x7d\x7d", by rw [heq2]; simp, ⟨.undefinedErr, rfl⟩, by decide⟩ 1

theorem c8_check_structure_witness :
    (([("x", Value.int 1), ("y", Value.int 2)].all fun e => !isDictV e.2) = true) ∧
    (keys [("x", Value.int 1), ("y", Value.int 2)]).Nodup ∧
    checkStructureDictF 1 [("x", Value.int 1), ("y", Value.int 2)] [("x", Value.int 1)] =
      ([("x", Value.int 1), ("y", Value.int 2)].filter
        (fun e => (lookup [("x", Value.int 1)] e.1).isNone)) :=
  ⟨rfl, by decide,
   (c8_check_structure 0 [("x", .int 1), ("y", .int 2)] [("x", .int 1)]
     rfl (by decide)).1⟩

/-! ## Claims C1-C4, C7: round trips and idempotence -/
theorem containsSub_eq_false {pat l : List Char} {c : Char}
    (hc : c ∈ pat) (hl : c ∉ l) : containsSub pat l = false := by
  cases hcs : containsSub pat l
  · rfl
  · exact absurd (mem_of_containsSub hcs hc) hl

theorem lookup_of_mem_nodup {d : Dict} {e : String × Value}
    (he : e ∈ d) (hnd : (keys d).Nodup) : lookup d e.1 = some e.2 := by
  induction d with
  | nil => simp at he
  | cons e1 rest ih =>
      obtain ⟨k1, v1⟩ := e1
      have hnd1 : (k1 :: keys rest).Nodup := hnd
      rcases List.mem_cons.mp he with rfl | he2
      · rw [lookup, if_pos rfl]
      · rw [lookup, if_neg, ]
        · exact ih he2 (List.Nodup.of_cons hnd1)
        · intro hk
          exact (List.nodup_cons.mp hnd1).1
            (hk ▸ (List.mem_map.mpr ⟨e, he2, rfl⟩))

theorem head_fresh (acc : Dict) (k : String) (l : List String)
    (h : (keys acc ++ k :: l).Nodup) : k ∉ keys acc := by
  rw [List.nodup_append] at h
  exact fun hk => h.2.2 hk (List.mem_cons_self k l)

theorem nodup_shift (acc : Dict) (k : String) (x : Value) (l : List String)
    (h : (keys acc ++ k :: l).Nodup) : (keys (acc ++ [(k, x)]) ++ l).Nodup := by
  have hkeys : keys (acc ++ [(k, x)]) ++ l = keys acc ++ k :: l := by
    simp [keys]
  rw [hkeys]
  exact h

theorem flattenLoopF_cons_scalar (recSub : Dict → Dict) (k : String) (v : Value)
    (hv : ∀ sub, v ≠ Value.dict sub) (acc rest : Dict) :
    flattenLoopF recSub none acc ((k, v) :: rest) =
      flattenLoopF recSub none (setKey acc k v) rest := by
  cases v with
  | dict sub => exact absurd rfl (hv sub)
  | null => rfl
  | bool b => rfl
  | int n => rfl
  | str s => rfl
  | list items => rfl

theorem leavesLoop_cons_scalar (recSub : Dict → Dict) (k : String) (v : Value)
    (hv : ∀ sub, v ≠ Value.dict sub) (rest : Dict) :
    leavesLoop recSub ((k, v) :: rest) = (k, v) :: leavesLoop recSub rest := by
  cases v with
  | dict sub => exact absurd rfl (hv sub)
  | null => rfl
  | bool b => rfl
  | int n => rfl
  | str s => rfl
  | list items => rfl

theorem structureLoopF_cons_scalar (recSub : Dict → Dict) (o : Dict) (k : String)
    (v : Value) (hv : ∀ sub, v ≠ Value.dict sub) (acc rest : Dict) :
    structureLoopF recSub o acc ((k, v) :: rest) =
      (match lookup o k with
       | some w => structureLoopF recSub o (setKey acc k w) rest
       | none => structureLoopF recSub o acc rest) := by
  cases v with
  | dict sub => exact absurd rfl (hv sub)
  | null => rfl
  | bool b => rfl
  | int n => rfl
  | str s => rfl
  | list items => rfl

theorem goodTreeLoop_cons_scalar (recSub : Dict → Bool) (k : String) (v : Value)
    (hv : ∀ sub, v ≠ Value.dict sub) (rest : Dict) :
    goodTreeLoop recSub ((k, v) :: rest) = goodTreeLoop recSub rest := by
  cases v with
  | dict sub => exact absurd rfl (hv sub)
  | null => rfl
  | bool b => rfl
  | int n => rfl
  | str s => rfl
  | list items => rfl

theorem flattenLoopF_leaves (fuel : Nat)
    (hrec : ∀ sub, (keys (leavesF fuel sub)).Nodup →
      flattenDictF fuel sub none = leavesF fuel sub) :
    ∀ (todo acc : Dict),
      (keys acc ++ keys (leavesLoop (leavesF fuel) todo)).Nodup →
      flattenLoopF (fun sub => flattenDictF fuel sub none) none acc todo =
        acc ++ leavesLoop (leavesF fuel) todo := by
  intro todo
  induction todo with
  | nil => intro acc _; simp [flattenLoopF, leavesLoop]
  | cons kv rest ih =>
      obtain ⟨k, v⟩ := kv
      intro acc hnd
      have scalar_step : ∀ v2 : Value, (∀ sub2, v2 ≠ Value.dict sub2) →
          (keys acc ++ keys (leavesLoop (leavesF fuel) ((k, v2) :: rest))).Nodup →
          flattenLoopF (fun sub => flattenDictF fuel sub none) none acc ((k, v2) :: rest) =
            acc ++ leavesLoop (leavesF fuel) ((k, v2) :: rest) := by
        intro v2 hv2 hnd2
        rw [leavesLoop_cons_scalar _ k v2 hv2] at hnd2 ⊢
        have hnd1 : (keys acc ++ k :: keys (leavesLoop (leavesF fuel) rest)).Nodup := hnd2
        rw [flattenLoopF_cons_scalar _ k v2 hv2,
          setKey_fresh v2 (head_fresh acc k _ hnd1)]
        simpa using ih (acc ++ [(k, v2)]) (nodup_shift acc k v2 _ hnd1)
      cases v with
      | dict sub =>
          have hsplit : leavesLoop (leavesF fuel) ((k, Value.dict sub) :: rest) =
              leavesF fuel sub ++ leavesLoop (leavesF fuel) rest := rfl
          rw [hsplit] at hnd ⊢
          rw [keys_append, List.nodup_append] at hnd
          obtain ⟨h1, h2, h3⟩ := hnd
          have h2p := List.nodup_append.mp h2
          show flattenLoopF (fun sub => flattenDictF fuel sub none) none
              (dictUpdate acc (flattenDictF fuel sub none)) rest =
            acc ++ (leavesF fuel sub ++ leavesLoop (leavesF fuel) rest)
          rw [hrec sub h2p.1,
            dictUpdate_fresh (leavesF fuel sub) acc
              (fun kx hkx hin => h3 hin (List.mem_append_left _ hkx)) h2p.1]
          have hnd3 : (keys (acc ++ leavesF fuel sub) ++
              keys (leavesLoop (leavesF fuel) rest)).Nodup := by
            rw [keys_append, List.append_assoc]
            exact List.nodup_append.mpr ⟨h1, h2, h3⟩
          simpa using ih (acc ++ leavesF fuel sub) hnd3
      | null => exact scalar_step Value.null (fun sub2 h => Value.noConfusion h) hnd
      | bool b => exact scalar_step (Value.bool b) (fun sub2 h => Value.noConfusion h) hnd
      | int n => exact scalar_step (Value.int n) (fun sub2 h => Value.noConfusion h) hnd
      | str s => exact scalar_step (Value.str s) (fun sub2 h => Value.noConfusion h) hnd
      | list items =>
          exact scalar_step (Value.list items) (fun sub2 h => Value.noConfusion h) hnd

theorem flattenDictF_leaves : ∀ (fuel : Nat) (d : Dict),
    (keys (leavesF fuel d)).Nodup → flattenDictF fuel d none = leavesF fuel d := by
  intro fuel
  induction fuel with
  | zero => intro d _; rfl
  | succ fuel ih =>
      intro d hnd
      show flattenLoopF (fun sub => flattenDictF fuel sub none) none [] d =
        leavesLoop (leavesF fuel) d
      simpa using flattenLoopF_leaves fuel (fun sub h => ih sub h) d [] (by simpa using hnd)

theorem structureLoopF_id (fuel : Nat) (o : Dict)
    (hrec : ∀ sub, goodTreeB fuel sub = true →
      (∀ e ∈ leavesF fuel sub, lookup o e.1 = some e.2) →
      structureDictF fuel o sub = sub) :
    ∀ (todo acc : Dict),
      goodTreeLoop (goodTreeB fuel) todo = true →
      (∀ e ∈ leavesLoop (leavesF fuel) todo, lookup o e.1 = some e.2) →
      (keys acc ++ keys todo).Nodup →
      structureLoopF (fun sub => structureDictF fuel o sub) o acc todo = acc ++ todo := by
  intro todo
  induction todo with
  | nil => intro acc _ _ _; simp [structureLoopF]
  | cons kv rest ih =>
      obtain ⟨k, v⟩ := kv
      intro acc hg hlv hnd
      have hnd1 : (keys acc ++ k :: keys rest).Nodup := hnd
      have scalar_step : ∀ v2 : Value, (∀ sub2, v2 ≠ Value.dict sub2) →
          goodTreeLoop (goodTreeB fuel) ((k, v2) :: rest) = true →
          (∀ e ∈ leavesLoop (leavesF fuel) ((k, v2) :: rest), lookup o e.1 = some e.2) →
          structureLoopF (fun sub => structureDictF fuel o sub) o acc ((k, v2) :: rest) =
            acc ++ (k, v2) :: rest := by
        intro v2 hv2 hg2 hlv2
        rw [goodTreeLoop_cons_scalar _ k v2 hv2] at hg2
        rw [leavesLoop_cons_scalar _ k v2 hv2] at hlv2
        have hlook : lookup o k = some v2 := hlv2 (k, v2) (List.mem_cons_self _ _)
        rw [structureLoopF_cons_scalar _ o k v2 hv2, hlook]
        show structureLoopF (fun sub => structureDictF fuel o sub) o
          (setKey acc k v2) rest = acc ++ (k, v2) :: rest
        rw [setKey_fresh v2 (head_fresh acc k _ hnd1)]
        have hnext := ih (acc ++ [(k, v2)]) hg2
          (fun e he => hlv2 e (List.mem_cons_of_mem _ he))
          (nodup_shift acc k v2 _ hnd1)
        simpa using hnext
      cases v with
      | dict sub =>
          simp only [goodTreeLoop, Bool.and_eq_true, Bool.not_eq_true'] at hg
          obtain ⟨⟨hne, hgb⟩, hgrest⟩ := hg
          have hsplit : leavesLoop (leavesF fuel) ((k, Value.dict sub) :: rest) =
              leavesF fuel sub ++ leavesLoop (leavesF fuel) rest := rfl
          rw [hsplit] at hlv
          show structureLoopF (fun sub => structureDictF fuel o sub) o
              (if (structureDictF fuel o sub).isEmpty then acc
               else setKey acc k (.dict (structureDictF fuel o sub))) rest =
            acc ++ (k, Value.dict sub) :: rest
          rw [hrec sub hgb (fun e he => hlv e (List.mem_append_left _ he)),
            if_neg (by simp [hne]),
            setKey_fresh (Value.dict sub) (head_fresh acc k _ hnd1)]
          have hnext := ih (acc ++ [(k, Value.dict sub)]) hgrest
            (fun e he => hlv e (List.mem_append_right _ he))
            (nodup_shift acc k (Value.dict sub) _ hnd1)
          simpa using hnext
      | null => exact scalar_step Value.null (fun sub2 h => Value.noConfusion h) hg hlv
      | bool b => exact scalar_step (Value.bool b) (fun sub2 h => Value.noConfusion h) hg hlv
      | int n => exact scalar_step (Value.int n) (fun sub2 h => Value.noConfusion h) hg hlv
      | str s => exact scalar_step (Value.str s) (fun sub2 h => Value.noConfusion h) hg hlv
      | list items =>
          exact scalar_step (Value.list items) (fun sub2 h => Value.noConfusion h) hg hlv

theorem structureDictF_leaves_id : ∀ (fuel : Nat) (o t : Dict),
    goodTreeB fuel t = true →
    (∀ e ∈ leavesF fuel t, lookup o e.1 = some e.2) →
    structureDictF fuel o t = t := by
  intro fuel
  induction fuel with
  | zero =>
      intro o t hg _
      rw [goodTreeB] at hg
      simp at hg
  | succ fuel ih =>
      intro o t hg hlv
      rw [goodTreeB, Bool.and_eq_true] at hg
      show structureLoopF (fun sub => structureDictF fuel o sub) o [] t = t
      have hnd0 : (keys ([] : Dict) ++ keys t).Nodup := by
        simpa using of_decide_eq_true hg.1
      simpa using structureLoopF_id fuel o (fun sub hgs hls => ih o sub hgs hls)
        t [] hg.2 hlv hnd0

/-- An empty sub-mapping defeats the round trip: flattening `a = \x7b\x7d`
drops the entry and re-structuring collapses the tree to nothing, although
the tree has no duplicate leaf keys at all. -/
theorem c7_counterexample :
    (keys (leavesF 2 [("a", Value.dict [])])).Nodup ∧
    structureDictF 2 (flattenDictF 2 [("a", Value.dict [])] none)
      [("a", Value.dict [])] = [] ∧
    ([] : Dict) ≠ [("a", Value.dict [])] := by
  refine ⟨by decide, rfl, ?_⟩
  intro h
  exact List.cons_ne_nil _ _ h.symm

/-- C7 (amended): re-structuring the flattening of a nested mapping against
the mapping itself reproduces it whenever, beyond the claimed uniqueness of
leaf keys across branches, the tree has unique keys at every level and no
empty sub-mapping; an empty sub-mapping is dropped by `flatten_dict` and
collapsed by `structure_dict`, so the round trip fails on it even with no
duplicate leaf keys. -/
theorem c7_flatten_structure_amended (fuel : Nat) (d : Dict)
    (hgood : goodTreeB fuel d = true)
    (hleaf : (keys (leavesF fuel d)).Nodup) :
    structureDictF fuel (flattenDictF fuel d none) d = d := by
  rw [flattenDictF_leaves fuel d hleaf]
  exact structureDictF_leaves_id fuel (leavesF fuel d) d hgood
    (fun e he => lookup_of_mem_nodup he hleaf)

theorem c7_flatten_structure_amended_witness :
    structureDictF 3
      (flattenDictF 3 [("s", Value.dict [("a", Value.int 1), ("b", Value.str "x")]),
        ("c", Value.bool true)] none)
      [("s", Value.dict [("a", Value.int 1), ("b", Value.str "x")]),
        ("c", Value.bool true)] =
      [("s", Value.dict [("a", Value.int 1), ("b", Value.str "x")]),
        ("c", Value.bool true)] :=
  c7_flatten_structure_amended 3
    [("s", Value.dict [("a", Value.int 1), ("b", Value.str "x")]), ("c", Value.bool true)]
    (by decide) (by decide)

theorem getLast_wrap (q c : Char) (l : List Char) :
    ∀ h, (q :: l ++ [c]).getLast h = c := by
  intro h
  exact List.getLast_append _

theorem stripChars_wrap {p : Char → Bool} {q : Char} (hq : p q = true) :
    ∀ (w : List Char), (∀ h : w ≠ [], p (w.head h) = false ∧ p (w.getLast h) = false) →
      stripChars p (q :: w ++ [q]) = w
  | [], _ => by simp [stripChars, List.dropWhile_cons, hq]
  | c :: w2, hw => by
      have hc : p c = false := (hw (by simp)).1
      have hlast : p ((c :: w2).getLast (by simp)) = false := (hw (by simp)).2
      have key : List.dropWhile p (w2.reverse ++ [c]) = w2.reverse ++ [c] := by
        apply dropWhile_eq_self_of_head
        intro hne
        cases w2 with
        | nil => simpa using hc
        | cons d w3 =>
            rw [List.head_append_of_ne_nil (by simp)]
            rw [List.head_reverse]
            have hgl : (c :: d :: w3).getLast (by simp) = (d :: w3).getLast (by simp) :=
              List.getLast_cons (by simp)
            rw [hgl] at hlast
            exact hlast
      unfold stripChars
      rw [show q :: (c :: w2) ++ [q] = q :: c :: (w2 ++ [q]) by simp]
      rw [List.dropWhile_cons, if_pos hq, List.dropWhile_cons, if_neg (by simp [hc])]
      rw [show (c :: (w2 ++ [q])).reverse = q :: (w2.reverse ++ [c]) by simp]
      rw [List.dropWhile_cons, if_pos hq, key]
      simp

theorem intToDecStr_chars (n : Int) :
    ∀ c ∈ (intToDecStr n).data, c.isDigit = true ∨ c = '-' := by
  intro c hc
  rw [intToDecStr] at hc
  by_cases hn : n < 0
  · rw [if_pos hn] at hc
    rcases List.mem_cons.mp hc with rfl | hc2
    · exact Or.inr rfl
    · exact Or.inl (natToDecChars_digits _ _ hc2)
  · rw [if_neg hn] at hc
    exact Or.inl (natToDecChars_digits _ _ hc)

theorem notMem_intToDecStr {c : Char} (n : Int) (hd : c.isDigit = false) (hm : c ≠ '-') :
    c ∉ (intToDecStr n).data := by
  intro hc
  rcases intToDecStr_chars n c hc with h | h
  · rw [hd] at h
    exact Bool.noConfusion h
  · exact hm h

theorem intToDecStr_ne (n : Int) (s : String) (c : Char) (hc : c ∈ s.data)
    (hd : c.isDigit = false) (hm : c ≠ '-') : intToDecStr n ≠ s := by
  intro he
  exact notMem_intToDecStr n hd hm (by rw [he]; exact hc)

theorem splitOpt_clean : ∀ (kc : List Char), (∀ c ∈ kc, iniDelim c = false) →
    ∀ rest, splitOpt (kc ++ '=' :: rest) = some (kc, rest)
  | [], _ => by
      intro rest
      rw [List.nil_append, splitOpt, if_pos (by decide)]
  | c :: kc2, h => by
      intro rest
      rw [List.cons_append, splitOpt, if_neg (by simp [h c (by simp)]),
        splitOpt_clean kc2 (fun d hd => h d (by simp [hd])) rest]

theorem takeUntilChar_no_stop (stop : Char) :
    ∀ (l : List Char), stop ∉ l → ∀ r, takeUntilChar stop (l ++ stop :: r) = (l, stop :: r)
  | [], _ => by
      intro r
      rw [List.nil_append, takeUntilChar, if_pos rfl]
  | c :: l2, h => by
      intro r
      rw [List.cons_append, takeUntilChar, if_neg (fun hc => h (by simp [hc])),
        takeUntilChar_no_stop stop l2 (fun hm => h (by simp [hm])) r]

theorem splitNL_joinLines : ∀ ls : List (List Char), (∀ l ∈ ls, '\n' ∉ l) →
    splitNL (joinLines ls) = ls ++ [[]]
  | [], _ => rfl
  | l :: ls, h => by
      rw [joinLines, splitNL_line (h l (by simp)),
        splitNL_joinLines ls (fun u hu => h u (by simp [hu]))]
      rfl

theorem listToStrF_bool (fuel : Nat) (b : Bool) :
    listToStrF (fuel + 1) (.bool b) = (if b then "True" else "False") := by
  cases b <;> rfl

theorem isQuoteChar_eq_false_of_digit {c : Char} (h : c.isDigit = true) :
    isQuoteChar c = false := by
  rw [isQuoteChar]
  rw [decide_eq_false (fun hc => by rw [hc] at h; exact absurd h (by decide)),
    decide_eq_false (fun hc => by rw [hc] at h; exact absurd h (by decide))]
  rfl

theorem serVal_spec (fuel : Nat) (v : Value) (hv : iniProducibleValB v = true) :
    '\n' ∉ (serVal (fuel + 1) v).data ∧
    strToList (String.mk ('\x27' :: (serVal (fuel + 1) v).data ++ ['\x27'])) = v := by
  cases v with
  | null => exact absurd hv (by decide)
  | list items => exact absurd hv Bool.false_ne_true
  | dict entries => exact absurd hv Bool.false_ne_true
  | bool b =>
      have hser : serVal (fuel + 1) (.bool b) = (if b then "True" else "False") := by
        show strReplace (strReplace (listToStrF (fuel + 1) (.bool b)) "\x27" "\"") "\n" " " = _
        rw [listToStrF_bool]
        cases b <;> rfl
      rw [hser]
      cases b <;> exact ⟨by decide, rfl⟩
  | int n =>
      have hser : serVal (fuel + 1) (.int n) = intToDecStr n := by
        show strReplace (strReplace (intToDecStr n) "\x27" "\"") "\n" " " = _
        rw [strReplace_not_contains _ (containsSub_eq_false
          (show '\x27' ∈ ("\x27" : String).data by decide)
          (notMem_intToDecStr n (by decide) (by decide)))]
        rw [strReplace_not_contains _ (containsSub_eq_false
          (show '\n' ∈ ("\n" : String).data by decide)
          (notMem_intToDecStr n (by decide) (by decide)))]
      refine ⟨?_, ?_⟩
      · rw [hser]
        exact notMem_intToDecStr n (by decide) (by decide)
      · rw [hser]
        have hwq : quoteStrip (wsStrip ('\x27' :: (intToDecStr n).data ++ ['\x27'])) =
            (intToDecStr n).data := by
          have hws : wsStrip ('\x27' :: (intToDecStr n).data ++ ['\x27']) =
              '\x27' :: (intToDecStr n).data ++ ['\x27'] := by
            apply stripChars_eq_self
            · intro hh
              exact (by decide : isPyWs '\x27' = false)
            · intro hh
              rw [getLast_wrap]
              decide
          rw [hws]
          apply stripChars_wrap (by decide)
          intro hne
          constructor
          · rcases intToDecStr_chars n _ (List.head_mem hne) with h | h
            · exact isQuoteChar_eq_false_of_digit h
            · rw [h]
              decide
          · rcases intToDecStr_chars n _ (List.getLast_mem hne) with h | h
            · exact isQuoteChar_eq_false_of_digit h
            · rw [h]
              decide
        show strToType (String.mk (quoteStrip (wsStrip
          ('\x27' :: (intToDecStr n).data ++ ['\x27'])))) = Value.int n
        rw [hwq]
        show strToType (intToDecStr n) = Value.int n
        rw [strToType,
          if_neg (intToDecStr_ne n "True" 'T' (by decide) (by decide) (by decide)),
          if_neg (intToDecStr_ne n "False" 'F' (by decide) (by decide) (by decide)),
          parseIntStr_intToDecStr]
  | str s =>
      simp only [iniProducibleValB, Bool.and_eq_true] at hv
      obtain ⟨⟨⟨⟨hchars, hqsB⟩, hTB⟩, hFB⟩, hPB⟩ := hv
      have hqs : quoteStrip (wsStrip ('\x27' :: s.data ++ ['\x27'])) = s.data :=
        of_decide_eq_true hqsB
      have hT : s ≠ "True" := by simpa using hTB
      have hF : s ≠ "False" := by simpa using hFB
      have hP : parseIntStr s = none := by simpa using hPB
      have hq27 : '\x27' ∉ s.data := by
        intro hm
        have h2 := List.all_eq_true.mp hchars _ hm
        simp at h2
      have hnl : '\n' ∉ s.data := by
        intro hm
        have h2 := List.all_eq_true.mp hchars _ hm
        simp at h2
      have hser : serVal (fuel + 1) (.str s) = s := by
        show strReplace (strReplace s "\x27" "\"") "\n" " " = s
        rw [strReplace_not_contains _ (containsSub_eq_false
          (show '\x27' ∈ ("\x27" : String).data by decide) hq27)]
        rw [strReplace_not_contains _ (containsSub_eq_false
          (show '\n' ∈ ("\n" : String).data by decide) hnl)]
      rw [hser]
      refine ⟨hnl, ?_⟩
      show strToType (String.mk (quoteStrip (wsStrip
        ('\x27' :: s.data ++ ['\x27'])))) = Value.str s
      rw [hqs]
      show strToType s = Value.str s
      rw [strToType, if_neg hT, if_neg hF, hP]

theorem getLast_eq_of_getLastQ {l : List Char} {a : Char} (h : l.getLast? = some a) :
    ∀ hne, l.getLast hne = a := by
  intro hne
  rw [List.getLast?_eq_getLast _ hne] at h
  exact Option.some.inj h

theorem classify_blank : classifyIniLine [] = .blankLine := rfl

theorem classify_sec (sec : String) (hs : iniSafeSecB sec = true) :
    classifyIniLine ('[' :: (sec.data ++ [']'])) = .sectionLine sec.data := by
  have hbr : ']' ∉ sec.data := by
    intro hm
    have h2 := List.all_eq_true.mp hs _ hm
    simp at h2
  have hws : wsStrip ('[' :: (sec.data ++ [']'])) = '[' :: (sec.data ++ [']']) := by
    apply stripChars_eq_self
    · intro hh
      exact (by decide : isPyWs '[' = false)
    · intro hh
      rw [getLast_eq_of_getLastQ (show ('[' :: (sec.data ++ [']'])).getLast? = some ']'
        from List.getLast?_concat ('[' :: sec.data)) hh]
      decide
  rw [classifyIniLine, hws]
  show (if '[' = '#' ∨ '[' = ';' then IniLine.commentLine
    else if '[' = '[' ∧ ']' ∈ sec.data ++ [']'] then
      IniLine.sectionLine (takeUntilChar ']' (sec.data ++ [']'])).1
    else _) = IniLine.sectionLine sec.data
  rw [if_neg (by decide), if_pos ⟨rfl, by simp⟩,
    show sec.data ++ [']'] = sec.data ++ (']' :: []) from rfl,
    takeUntilChar_no_stop ']' sec.data hbr []]

theorem classify_kv (k : String) (w : List Char) (hk : iniSafeKeyB k = true) :
    classifyIniLine (k.data ++ ('=' :: '\x27' :: (w ++ ['\x27']))) =
      .kvLine k.data ('\x27' :: (w ++ ['\x27'])) := by
  simp only [iniSafeKeyB, Bool.and_eq_true] at hk
  obtain ⟨⟨h1, h2⟩, h3⟩ := hk
  have hdelim : ∀ c ∈ k.data, iniDelim c = false := by
    intro c hc
    have hc2 := List.all_eq_true.mp h3 _ hc
    simp only [Bool.and_eq_true, Bool.not_eq_true'] at hc2
    exact hc2.2
  cases hd : k.data with
  | nil =>
      rw [hd] at h1
      exact absurd h1 Bool.false_ne_true
  | cons c0 k2 =>
      rw [hd] at h1 h2 hdelim
      simp only [Bool.and_eq_true, Bool.not_eq_true'] at h1
      obtain ⟨⟨⟨hh1, hh2⟩, hh3⟩, hh4⟩ := h1
      have hgl : isPyWs ((c0 :: k2).getLast (by simp)) = false := by
        rw [List.getLast?_eq_getLast _ (by simp)] at h2
        simpa using h2
      have hwsk : wsStrip (c0 :: k2) = c0 :: k2 := by
        apply stripChars_eq_self
        · intro hh
          exact hh4
        · intro hh
          exact hgl
      have hq : ((c0 :: k2) ++ ('=' :: '\x27' :: (w ++ ['\x27']))).getLast? =
          some '\x27' := by
        show ((c0 :: k2) ++ (('=' :: '\x27' :: w) ++ ['\x27'])).getLast? = some '\x27'
        rw [← List.append_assoc]
        exact List.getLast?_concat _
      have hws : wsStrip ((c0 :: k2) ++ ('=' :: '\x27' :: (w ++ ['\x27']))) =
          (c0 :: k2) ++ ('=' :: '\x27' :: (w ++ ['\x27'])) := by
        apply stripChars_eq_self
        · intro hh
          exact hh4
        · intro hh
          rw [getLast_eq_of_getLastQ hq hh]
          decide
      have hwsv : wsStrip ('\x27' :: (w ++ ['\x27'])) = '\x27' :: (w ++ ['\x27']) := by
        apply stripChars_eq_self
        · intro hh
          exact (by decide : isPyWs '\x27' = false)
        · intro hh
          rw [getLast_eq_of_getLastQ (show ('\x27' :: (w ++ ['\x27'])).getLast? =
            some '\x27' from List.getLast?_concat ('\x27' :: w)) hh]
          decide
      rw [classifyIniLine, hws]
      show (if c0 = '#' ∨ c0 = ';' then IniLine.commentLine
        else if c0 = '[' ∧ ']' ∈ k2 ++ ('=' :: '\x27' :: (w ++ ['\x27'])) then
          IniLine.sectionLine (takeUntilChar ']' (k2 ++ ('=' :: '\x27' :: (w ++ ['\x27'])))).1
        else
          match splitOpt (c0 :: (k2 ++ ('=' :: '\x27' :: (w ++ ['\x27'])))) with
          | some p => if wsStrip p.1 = [] then IniLine.junkLine
              else IniLine.kvLine (wsStrip p.1) (wsStrip p.2)
          | none => IniLine.junkLine) = IniLine.kvLine (c0 :: k2) ('\x27' :: (w ++ ['\x27']))
      rw [if_neg (by
          rintro (hc | hc)
          · rw [hc] at hh1
            simp at hh1
          · rw [hc] at hh2
            simp at hh2),
        if_neg (by
          rintro ⟨hc, _⟩
          rw [hc] at hh3
          simp at hh3),
        show splitOpt (c0 :: (k2 ++ ('=' :: '\x27' :: (w ++ ['\x27'])))) =
            some (c0 :: k2, '\x27' :: (w ++ ['\x27'])) from
          splitOpt_clean (c0 :: k2) hdelim ('\x27' :: (w ++ ['\x27']))]
      show (if wsStrip (c0 :: k2) = [] then IniLine.junkLine
        else IniLine.kvLine (wsStrip (c0 :: k2)) (wsStrip ('\x27' :: (w ++ ['\x27'])))) = _
      rw [hwsk, hwsv, if_neg (by simp)]

theorem cfgIniLoopF_scalars (fuel : Nat) (recSub : Dict → Option String → String)
    (kname : Option String) :
    ∀ es : Dict,
      (es.all fun e => match e.2 with
        | .dict _ => false | .list _ => false | _ => true) = true →
      cfgIniLoopF fuel recSub es kname = (optText fuel es, "") := by
  intro es
  induction es with
  | nil => intro _; rfl
  | cons kv rest ih =>
      obtain ⟨k, v⟩ := kv
      intro h
      rw [List.all_cons, Bool.and_eq_true] at h
      cases v with
      | dict sub => exact absurd h.1 Bool.false_ne_true
      | list items => exact absurd h.1 Bool.false_ne_true
      | null =>
          simp only [cfgIniLoopF]
          rw [ih h.2]
          rfl
      | bool b =>
          simp only [cfgIniLoopF]
          rw [ih h.2]
          rfl
      | int n =>
          simp only [cfgIniLoopF]
          rw [ih h.2]
          rfl
      | str s =>
          simp only [cfgIniLoopF]
          rw [ih h.2]
          rfl

theorem cfgIniLoopF_dicts (fuel : Nat) (recSub : Dict → Option String → String) :
    ∀ cfg : Dict,
      (cfg.all fun e => match e.2 with | .dict _ => true | _ => false) = true →
      cfgIniLoopF fuel recSub cfg none = ("", dictBlocks recSub cfg) := by
  intro cfg
  induction cfg with
  | nil => intro _; rfl
  | cons kv rest ih =>
      obtain ⟨k, v⟩ := kv
      intro h
      rw [List.all_cons, Bool.and_eq_true] at h
      cases v with
      | dict sub =>
          simp only [cfgIniLoopF]
          rw [ih h.2]
          rfl
      | null => exact absurd h.1 Bool.false_ne_true
      | bool b => exact absurd h.1 Bool.false_ne_true
      | int n => exact absurd h.1 Bool.false_ne_true
      | str s => exact absurd h.1 Bool.false_ne_true
      | list items => exact absurd h.1 Bool.false_ne_true

theorem producibleSec_scalars (es : Dict) (h : iniProducibleSecB es = true) :
    (es.all fun e => match e.2 with
      | .dict _ => false | .list _ => false | _ => true) = true := by
  rw [iniProducibleSecB, Bool.and_eq_true] at h
  rw [List.all_eq_true]
  intro e he
  have h2 := List.all_eq_true.mp h.2 e he
  rw [Bool.and_eq_true] at h2
  have h3 := h2.2
  cases hv : e.2 with
  | dict d2 => rw [hv] at h3; exact absurd h3 Bool.false_ne_true
  | list l2 => rw [hv] at h3; exact absurd h3 Bool.false_ne_true
  | null => rfl
  | bool b => rfl
  | int n => rfl
  | str s2 => rfl

theorem cfgToIniStrF_section (fuel : Nat) (sec : String) (es : Dict)
    (h : (es.all fun e => match e.2 with
      | .dict _ => false | .list _ => false | _ => true) = true) :
    cfgToIniStrF (fuel + 1) es (some sec) =
      (if substr "." sec then "" else "\n") ++ "[" ++ sec ++ "]\n" ++
        optText (fuel + 1) es ++ "" := by
  show iniSectionHeader (some sec)
    (cfgIniLoopF (fuel + 1) (cfgToIniStrF fuel) es (some sec)) = _
  rw [cfgIniLoopF_scalars (fuel + 1) (cfgToIniStrF fuel) (some sec) es h]
  simp only [iniSectionHeader]
  rw [if_neg (fun hc => hc.2 rfl)]

theorem dictBlocks_secText (fuel : Nat) :
    ∀ cfg : Dict,
      (cfg.all fun e => iniSafeSecB e.1 &&
        (match e.2 with | .dict es => iniProducibleSecB es | _ => false)) = true →
      dictBlocks (cfgToIniStrF (fuel + 1)) cfg = secText fuel cfg := by
  intro cfg
  induction cfg with
  | nil => intro _; rfl
  | cons kv rest ih =>
      obtain ⟨sec, v⟩ := kv
      intro h
      rw [List.all_cons, Bool.and_eq_true, Bool.and_eq_true] at h
      obtain ⟨⟨_, hval⟩, hrest⟩ := h
      cases v with
      | dict es =>
          simp only [dictBlocks, secText]
          rw [ih hrest, cfgToIniStrF_section fuel sec es (producibleSec_scalars es hval)]
      | null => exact absurd hval Bool.false_ne_true
      | bool b => exact absurd hval Bool.false_ne_true
      | int n => exact absurd hval Bool.false_ne_true
      | str s2 => exact absurd hval Bool.false_ne_true
      | list items => exact absurd hval Bool.false_ne_true

theorem joinLines_append : ∀ a b : List (List Char),
    joinLines (a ++ b) = joinLines a ++ joinLines b
  | [], _ => rfl
  | l :: ls, b => by
      rw [List.cons_append, joinLines, joinLines, joinLines_append ls b]
      simp

theorem optText_data (fuel : Nat) :
    ∀ es : Dict, (optText fuel es).data = joinLines (optLinesL fuel es) := by
  intro es
  induction es with
  | nil => rfl
  | cons kv rest ih =>
      obtain ⟨k, v⟩ := kv
      simp only [optText, optLinesL, joinLines, String.data_append, ih,
        show ("=\x27" : String).data = ['=', '\x27'] from rfl,
        show ("\x27\n" : String).data = ['\x27', '\n'] from rfl]
      simp

theorem secText_data (fuel : Nat) :
    ∀ cfg : Dict, (secText fuel cfg).data = joinLines (secLinesL fuel cfg) := by
  intro cfg
  induction cfg with
  | nil => rfl
  | cons kv rest ih =>
      obtain ⟨sec, v⟩ := kv
      cases v with
      | dict es =>
          simp only [secText, secLinesL, String.data_append, ih, joinLines_append,
            optText_data, joinLines,
            show ("[" : String).data = ['['] from rfl,
            show ("]\n" : String).data = [']', '\n'] from rfl,
            show ("" : String).data = [] from rfl]
          by_cases hdot : substr "." sec = true
          · rw [if_pos hdot, if_pos hdot]
            simp [joinLines]
          · rw [if_neg hdot, if_neg hdot]
            simp [joinLines]
      | null => simpa [secText, secLinesL] using ih
      | bool b => simpa [secText, secLinesL] using ih
      | int n => simpa [secText, secLinesL] using ih
      | str s2 => simpa [secText, secLinesL] using ih
      | list items => simpa [secText, secLinesL] using ih

theorem secLinesL_ne_nil (fuel : Nat) (cfg : Dict) (hne : cfg.isEmpty = false)
    (hall : (cfg.all fun e => iniSafeSecB e.1 &&
      (match e.2 with | .dict es => iniProducibleSecB es | _ => false)) = true) :
    secLinesL fuel cfg ≠ [] := by
  cases cfg with
  | nil => exact absurd hne (by decide)
  | cons kv rest =>
      obtain ⟨sec, v⟩ := kv
      rw [List.all_cons, Bool.and_eq_true, Bool.and_eq_true] at hall
      obtain ⟨⟨_, hval⟩, _⟩ := hall
      cases v with
      | dict es =>
          simp only [secLinesL]
          intro h
          rw [List.append_eq_nil] at h
          rw [List.append_eq_nil] at h
          exact List.cons_ne_nil _ _ h.1.2
      | null => exact absurd hval Bool.false_ne_true
      | bool b => exact absurd hval Bool.false_ne_true
      | int n => exact absurd hval Bool.false_ne_true
      | str s2 => exact absurd hval Bool.false_ne_true
      | list items => exact absurd hval Bool.false_ne_true

theorem cfgToIniStrF_top (fuel : Nat) (cfg : Dict) (h : iniProducibleB cfg = true) :
    cfgToIniStrF (fuel + 2) cfg none = "\n" ++ secText fuel cfg := by
  rw [iniProducibleB, Bool.and_eq_true, Bool.and_eq_true] at h
  obtain ⟨⟨hne, _⟩, hall⟩ := h
  rw [Bool.not_eq_true'] at hne
  have hdicts : (cfg.all fun e => match e.2 with | .dict _ => true | _ => false) = true := by
    rw [List.all_eq_true]
    intro e he
    have h2 := List.all_eq_true.mp hall e he
    rw [Bool.and_eq_true] at h2
    have h3 := h2.2
    cases hv : e.2 with
    | dict d2 => rfl
    | null => rw [hv] at h3; exact absurd h3 Bool.false_ne_true
    | bool b => rw [hv] at h3; exact absurd h3 Bool.false_ne_true
    | int n => rw [hv] at h3; exact absurd h3 Bool.false_ne_true
    | str s2 => rw [hv] at h3; exact absurd h3 Bool.false_ne_true
    | list items => rw [hv] at h3; exact absurd h3 Bool.false_ne_true
  have hsub : secText fuel cfg ≠ "" := by
    intro he
    have hd : (secText fuel cfg).data = [] := by rw [he]
    rw [secText_data] at hd
    cases hl : secLinesL fuel cfg with
    | nil => exact secLinesL_ne_nil fuel cfg hne hall hl
    | cons l ls =>
        rw [hl, joinLines] at hd
        rcases List.append_eq_nil.mp hd with ⟨_, h2⟩
        exact List.cons_ne_nil _ _ h2
  show iniSectionHeader none
    (cfgIniLoopF (fuel + 2) (cfgToIniStrF (fuel + 1)) cfg none) = _
  rw [cfgIniLoopF_dicts (fuel + 2) (cfgToIniStrF (fuel + 1)) cfg hdicts,
    dictBlocks_secText fuel cfg hall]
  simp only [iniSectionHeader]
  rw [if_pos ⟨trivial, hsub⟩]

theorem contains_eq_false_strings (l : List String) (a : String) (h : a ∉ l) :
    l.contains a = false := by
  simp [h]

theorem appendOpt_last (k v : String) (done : List (String × String)) (sec : String)
    (hk : k ∉ done.map Prod.fst) :
    ∀ pre : List (String × List (String × String)), sec ∉ pre.map Prod.fst →
      appendOpt (pre ++ [(sec, done)]) sec k v = some (pre ++ [(sec, done ++ [(k, v)])])
  | [], _ => by
      rw [List.nil_append, appendOpt, if_pos rfl,
        show (done.map Prod.fst).contains k = false from
          contains_eq_false_strings _ _ hk,
        if_neg Bool.false_ne_true]
      rfl
  | (s1, es1) :: pre2, hpre => by
      have hs1 : s1 ≠ sec := by
        intro he
        exact hpre (by simp [he])
      rw [List.cons_append, appendOpt, if_neg hs1,
        appendOpt_last k v done sec hk pre2 (fun hm => hpre (by simp [hm]))]
      rfl

theorem iniFoldLines_opts (fuel : Nat) (sec : String) :
    ∀ (es : Dict) (restLines : List (List Char))
      (pre : List (String × List (String × String))) (done : List (String × String)),
      (es.all fun e => iniSafeKeyB e.1 && iniProducibleValB e.2) = true →
      (keys es).Nodup →
      sec ∉ pre.map Prod.fst →
      (∀ k2 ∈ done.map Prod.fst, k2 ∉ keys es) →
      iniFoldLines (optLinesL (fuel + 1) es ++ restLines) (some sec) (pre ++ [(sec, done)]) =
        iniFoldLines restLines (some sec) (pre ++ [(sec, done ++ rawOptsOf fuel es)])
  | [], restLines, pre, done, _, _, _, _ => by
      rw [show optLinesL (fuel + 1) ([] : Dict) = [] from rfl, List.nil_append,
        show rawOptsOf fuel ([] : Dict) = [] from rfl, List.append_nil]
  | (k, v) :: es2, restLines, pre, done, hall, hnd, hpre, hdone => by
      simp only [List.all_cons, Bool.and_eq_true] at hall
      obtain ⟨⟨hkey, hval⟩, hrest⟩ := hall
      have hnd1 : (k :: keys es2).Nodup := hnd
      have hknotes2 : k ∉ keys es2 := (List.nodup_cons.mp hnd1).1
      have hndrest : (keys es2).Nodup := (List.nodup_cons.mp hnd1).2
      have hkdone : k ∉ done.map Prod.fst := by
        intro hm
        exact hdone k hm (by simp [keys])
      have hdone2 : ∀ k2 ∈ (done ++
          [(k, String.mk ('\x27' :: ((serVal (fuel + 1) v).data ++ ['\x27'])))]).map Prod.fst,
          k2 ∉ keys es2 := by
        intro k2 hk2
        rw [List.map_append] at hk2
        rcases List.mem_append.mp hk2 with hk2 | hk2
        · intro hm
          exact hdone k2 hk2 (by
            show k2 ∈ k :: keys es2
            exact List.mem_cons_of_mem _ hm)
        · simp at hk2
          subst hk2
          exact hknotes2
      simp only [optLinesL, List.cons_append]
      rw [iniFoldLines, classify_kv k ((serVal (fuel + 1) v).data) hkey]
      show (match appendOpt (pre ++ [(sec, done)]) sec (String.mk k.data)
          (String.mk ('\x27' :: ((serVal (fuel + 1) v).data ++ ['\x27']))) with
        | some acc2 => iniFoldLines (optLinesL (fuel + 1) es2 ++ restLines) (some sec) acc2
        | none => Except.error IniErr.duplicateEntry) = _
      rw [show appendOpt (pre ++ [(sec, done)]) sec (String.mk k.data)
          (String.mk ('\x27' :: ((serVal (fuel + 1) v).data ++ ['\x27']))) =
          some (pre ++ [(sec, done ++
            [(k, String.mk ('\x27' :: ((serVal (fuel + 1) v).data ++ ['\x27'])))])]) from
        appendOpt_last k _ done sec hkdone pre hpre]
      show iniFoldLines (optLinesL (fuel + 1) es2 ++ restLines) (some sec)
        (pre ++ [(sec, done ++
          [(k, String.mk ('\x27' :: ((serVal (fuel + 1) v).data ++ ['\x27'])))])]) = _
      rw [iniFoldLines_opts fuel sec es2 restLines pre
        (done ++ [(k, String.mk ('\x27' :: ((serVal (fuel + 1) v).data ++ ['\x27'])))])
        hrest hndrest hpre hdone2]
      rw [List.append_assoc, List.singleton_append]
      rfl

theorem iniFoldLines_secs (fuel : Nat) :
    ∀ (cfg : Dict) (acc : List (String × List (String × String))) (cur : Option String),
      (cfg.all fun e => iniSafeSecB e.1 &&
        (match e.2 with | .dict es => iniProducibleSecB es | _ => false)) = true →
      (keys cfg).Nodup →
      (∀ s2 ∈ acc.map Prod.fst, s2 ∉ keys cfg) →
      iniFoldLines (secLinesL fuel cfg ++ [[]]) cur acc =
        .ok (acc ++ rawSecsOf fuel cfg)
  | [], acc, cur, _, _, _ => by
      show iniFoldLines ([[]] : List (List Char)) cur acc = .ok (acc ++ [])
      rw [List.append_nil]
      rfl
  | (sec, v) :: rest, acc, cur, hall, hnd, hfresh => by
      simp only [List.all_cons, Bool.and_eq_true] at hall
      obtain ⟨⟨hsec, hval⟩, hrest⟩ := hall
      have hnd1 : (sec :: keys rest).Nodup := hnd
      have hsecrest : sec ∉ keys rest := (List.nodup_cons.mp hnd1).1
      have hndrest : (keys rest).Nodup := (List.nodup_cons.mp hnd1).2
      have hsa : sec ∉ acc.map Prod.fst := by
        intro hm
        exact hfresh sec hm (by simp [keys])
      cases v with
      | dict es =>
          simp only [iniProducibleSecB, Bool.and_eq_true] at hval
          have hesnd : (keys es).Nodup := of_decide_eq_true hval.1
          have hfresh2 : ∀ s2 ∈ (acc ++ [(sec, rawOptsOf fuel es)]).map Prod.fst,
              s2 ∉ keys rest := by
            intro s2 hs2
            rw [List.map_append] at hs2
            rcases List.mem_append.mp hs2 with hs2 | hs2
            · intro hm
              exact hfresh s2 hs2 (by
                show s2 ∈ sec :: keys rest
                exact List.mem_cons_of_mem _ hm)
            · simp at hs2
              subst hs2
              exact hsecrest
          have main : iniFoldLines (('[' :: (sec.data ++ [']'])) ::
              (optLinesL (fuel + 1) es ++ (secLinesL fuel rest ++ [[]]))) cur acc =
              .ok (acc ++ ((sec, rawOptsOf fuel es) :: rawSecsOf fuel rest)) := by
            rw [iniFoldLines, classify_sec sec hsec]
            show (if (acc.map Prod.fst).contains (String.mk sec.data) = true
              then Except.error IniErr.duplicateEntry
              else iniFoldLines (optLinesL (fuel + 1) es ++ (secLinesL fuel rest ++ [[]]))
                (some (String.mk sec.data)) (acc ++ [(String.mk sec.data, [])])) = _
            rw [show (acc.map Prod.fst).contains (String.mk sec.data) = false from
                contains_eq_false_strings _ _ hsa,
              if_neg Bool.false_ne_true]
            show iniFoldLines (optLinesL (fuel + 1) es ++ (secLinesL fuel rest ++ [[]]))
              (some sec) (acc ++ [(sec, [])]) = _
            rw [iniFoldLines_opts fuel sec es (secLinesL fuel rest ++ [[]]) acc []
              hval.2 hesnd hsa (by simp)]
            show iniFoldLines (secLinesL fuel rest ++ [[]]) (some sec)
              (acc ++ [(sec, rawOptsOf fuel es)]) = _
            rw [iniFoldLines_secs fuel rest (acc ++ [(sec, rawOptsOf fuel es)]) (some sec)
              hrest hndrest hfresh2]
            rw [List.append_assoc, List.singleton_append]
          simp only [secLinesL, rawSecsOf]
          by_cases hdot : substr "." sec = true
          · rw [if_pos hdot]
            simp only [List.nil_append, List.append_assoc, List.cons_append]
            exact main
          · rw [if_neg hdot]
            simp only [List.append_assoc, List.cons_append, List.nil_append]
            show iniFoldLines ([] :: (('[' :: (sec.data ++ [']'])) ::
              (optLinesL (fuel + 1) es ++ (secLinesL fuel rest ++ [[]])))) cur acc = _
            exact main
      | null => exact absurd hval Bool.false_ne_true
      | bool b => exact absurd hval Bool.false_ne_true
      | int n => exact absurd hval Bool.false_ne_true
      | str s2 => exact absurd hval Bool.false_ne_true
      | list items => exact absurd hval Bool.false_ne_true

theorem optLinesL_no_nl (fuel : Nat) :
    ∀ es : Dict, (es.all fun e => iniSafeKeyB e.1 && iniProducibleValB e.2) = true →
      ∀ l ∈ optLinesL (fuel + 1) es, '\n' ∉ l
  | [], _ => by
      intro l hl
      simp [optLinesL] at hl
  | (k, v) :: es2, hall => by
      simp only [List.all_cons, Bool.and_eq_true] at hall
      obtain ⟨⟨hkey, hval⟩, hrest⟩ := hall
      intro l hl
      rcases List.mem_cons.mp hl with rfl | hl2
      · intro hnl
        rcases List.mem_append.mp hnl with hk2 | hrest2
        · simp only [iniSafeKeyB, Bool.and_eq_true] at hkey
          have h3 := List.all_eq_true.mp hkey.2 _ hk2
          simp at h3
        · rcases List.mem_cons.mp hrest2 with he | hrest3
          · exact absurd he (by decide)
          · rcases List.mem_cons.mp hrest3 with he | hrest4
            · exact absurd he (by decide)
            · rcases List.mem_append.mp hrest4 with hsv | hq
              · exact (serVal_spec fuel v hval).1 hsv
              · exact absurd hq (by decide)
      · exact optLinesL_no_nl fuel es2 hrest l hl2

theorem secLinesL_no_nl (fuel : Nat) :
    ∀ cfg : Dict,
      (cfg.all fun e => iniSafeSecB e.1 &&
        (match e.2 with | .dict es => iniProducibleSecB es | _ => false)) = true →
      ∀ l ∈ secLinesL fuel cfg, '\n' ∉ l
  | [], _ => by
      intro l hl
      simp [secLinesL] at hl
  | (sec, v) :: rest, hall => by
      simp only [List.all_cons, Bool.and_eq_true] at hall
      obtain ⟨⟨hsec, hval⟩, hrest⟩ := hall
      intro l hl
      cases v with
      | dict es =>
          simp only [secLinesL] at hl
          rcases List.mem_append.mp hl with hl1 | hl2
          · rcases List.mem_append.mp hl1 with hb | hl3
            · by_cases hdot : substr "." sec = true
              · rw [if_pos hdot] at hb
                simp at hb
              · rw [if_neg hdot] at hb
                simp at hb
                subst hb
                simp
            · rcases List.mem_cons.mp hl3 with rfl | hl4
              · intro hnl
                rcases List.mem_cons.mp hnl with he | hm
                · exact absurd he (by decide)
                · rcases List.mem_append.mp hm with hm2 | hm3
                  · have h3 := List.all_eq_true.mp hsec _ hm2
                    simp at h3
                  · exact absurd (by simpa using hm3 : '\n' = ']') (by decide)
              · have hop : iniProducibleSecB es = true := hval
                simp only [iniProducibleSecB, Bool.and_eq_true] at hop
                exact optLinesL_no_nl fuel es hop.2 l hl4
          · exact secLinesL_no_nl fuel rest hrest l hl2
      | null => exact absurd hval Bool.false_ne_true
      | bool b => exact absurd hval Bool.false_ne_true
      | int n => exact absurd hval Bool.false_ne_true
      | str s2 => exact absurd hval Bool.false_ne_true
      | list items => exact absurd hval Bool.false_ne_true

theorem rawOptsOf_maps (fuel : Nat) :
    ∀ es : Dict, (es.all fun e => iniSafeKeyB e.1 && iniProducibleValB e.2) = true →
      (rawOptsOf fuel es).map (fun kv => (kv.1, strToList kv.2)) = es
  | [], _ => rfl
  | (k, v) :: es2, hall => by
      simp only [List.all_cons, Bool.and_eq_true] at hall
      obtain ⟨⟨_, hval⟩, hrest⟩ := hall
      simp only [rawOptsOf, List.map_cons]
      rw [rawOptsOf_maps fuel es2 hrest,
        show strToList (String.mk ('\x27' :: ((serVal (fuel + 1) v).data ++ ['\x27']))) = v
          from (serVal_spec fuel v hval).2]

theorem rawSecsOf_maps (fuel : Nat) :
    ∀ cfg : Dict,
      (cfg.all fun e => iniSafeSecB e.1 &&
        (match e.2 with | .dict es => iniProducibleSecB es | _ => false)) = true →
      (rawSecsOf fuel cfg).map (fun se =>
        (se.1, Value.dict (se.2.map (fun kv => (kv.1, strToList kv.2))))) = cfg
  | [], _ => rfl
  | (sec, v) :: rest, hall => by
      simp only [List.all_cons, Bool.and_eq_true] at hall
      obtain ⟨⟨_, hval⟩, hrest⟩ := hall
      cases v with
      | dict es =>
          have hop : iniProducibleSecB es = true := hval
          simp only [iniProducibleSecB, Bool.and_eq_true] at hop
          simp only [rawSecsOf, List.map_cons]
          rw [rawSecsOf_maps fuel rest hrest]
          show ((sec, Value.dict ((rawOptsOf fuel es).map
            (fun kv => (kv.1, strToList kv.2)))) :: rest) = _
          rw [rawOptsOf_maps fuel es hop.2]
      | null => exact absurd hval Bool.false_ne_true
      | bool b => exact absurd hval Bool.false_ne_true
      | int n => exact absurd hval Bool.false_ne_true
      | str s2 => exact absurd hval Bool.false_ne_true
      | list items => exact absurd hval Bool.false_ne_true

/-- The writer substitutes quote characters (line 441), so a string value
holding a single quote comes back altered: the INI text `[db]` with
`host=it\x27s` parses to a configuration that its own serialization no
longer reproduces. -/
theorem c1_counterexample :
    loadIniConfig "[db]\nhost=it\x27s" =
      .ok [("db", Value.dict [("host", Value.str "it\x27s")])] ∧
    loadIniConfig (cfgToIniStrF 3
        [("db", Value.dict [("host", Value.str "it\x27s")])] none) =
      .ok [("db", Value.dict [("host", Value.str "it\"s")])] ∧
    Value.str "it\"s" ≠ Value.str "it\x27s" := by
  refine ⟨rfl, rfl, ?_⟩
  intro h
  rw [Value.str.injEq] at h
  exact absurd h (by decide)

/-- C1 (amended, INI adapter): parsing the serialization reproduces the
configuration for every non-empty producible configuration, where
producible means what `load_ini_config` itself can return and the writer
keeps intact: sections of scalar options whose names survive the line
grammar and whose string values contain no single quote or newline and
survive the quote-strip and scalar inference of the reader.  Values with a
quote character are altered by the writer, so the claimed unconditional
round trip fails; the other adapters rest on external libraries outside
the modelled fragment. -/
theorem c1_ini_roundtrip_amended (fuel : Nat) (cfg : Dict)
    (h : iniProducibleB cfg = true) :
    loadIniConfig (cfgToIniStrF (fuel + 2) cfg none) = .ok cfg := by
  have hb := h
  simp only [iniProducibleB, Bool.and_eq_true] at hb
  obtain ⟨⟨hne, hndD⟩, hall⟩ := hb
  have hnd : (keys cfg).Nodup := of_decide_eq_true hndD
  have hnonl : ∀ l ∈ ([] : List Char) :: secLinesL fuel cfg, '\n' ∉ l := by
    intro l hl
    rcases List.mem_cons.mp hl with rfl | hl2
    · simp
    · exact secLinesL_no_nl fuel cfg hall l hl2
  show (iniFoldLines (splitNL (cfgToIniStrF (fuel + 2) cfg none).data) none []).map
    (fun acc => acc.map (fun se =>
      (se.1, Value.dict (se.2.map (fun kv => (kv.1, strToList kv.2)))))) = .ok cfg
  rw [cfgToIniStrF_top fuel cfg h,
    show ("\n" ++ secText fuel cfg).data = '\n' :: (secText fuel cfg).data by
      rw [String.data_append]
      rfl,
    secText_data fuel cfg,
    show ('\n' :: joinLines (secLinesL fuel cfg)) =
      joinLines ([] :: secLinesL fuel cfg) from rfl,
    splitNL_joinLines ([] :: secLinesL fuel cfg) hnonl,
    show (([] : List Char) :: secLinesL fuel cfg) ++ [[]] =
      [] :: (secLinesL fuel cfg ++ [[]]) from rfl,
    show iniFoldLines ([] :: (secLinesL fuel cfg ++ [[]])) none [] =
      iniFoldLines (secLinesL fuel cfg ++ [[]]) none [] from rfl,
    iniFoldLines_secs fuel cfg [] none hall hnd (by simp)]
  rw [List.nil_append]
  show Except.ok ((rawSecsOf fuel cfg).map (fun se =>
    (se.1, Value.dict (se.2.map (fun kv => (kv.1, strToList kv.2)))))) = Except.ok cfg
  rw [rawSecsOf_maps fuel cfg hall]

theorem c1_ini_roundtrip_amended_witness :
    iniProducibleB [("db", Value.dict [("host", Value.str "localhost"),
      ("port", Value.int 5432), ("flag", Value.bool true)])] = true ∧
    loadIniConfig (cfgToIniStrF 3 [("db", Value.dict [("host", Value.str "localhost"),
      ("port", Value.int 5432), ("flag", Value.bool true)])] none) =
      .ok [("db", Value.dict [("host", Value.str "localhost"),
        ("port", Value.int 5432), ("flag", Value.bool true)])] :=
  ⟨by decide, c1_ini_roundtrip_amended 1
    [("db", Value.dict [("host", Value.str "localhost"),
      ("port", Value.int 5432), ("flag", Value.bool true)])] (by decide)⟩

end Ufs
